import Mathlib

/-!
Verification development for the schema-driven form engine
(src/engine/engine.ts, src/engine/deps.ts, src/engine/jsonlogic.ts,
src/utils/deepGet.ts of the form-renderer repository).

The TypeScript code manipulates dynamically typed JSON-like values, so the
embedding is built on a single inductive type `Value` of JavaScript runtime
values (including `undefined`, which JSON cannot express but the engine's
records can hold).  Records (plain JS objects used as string-keyed maps) are
embedded as association lists in insertion order, which is the iteration
order of `Object.keys`, `Map.forEach` and object spreads in JavaScript.
-/

set_option maxHeartbeats 1000000

/-- A JavaScript runtime value: undefined, null, boolean, number, string,
array, or plain object (fields in insertion order).  Numbers are embedded as
integers; every numeric literal appearing in the engine's schemas and rules
is integral, and no claim depends on float behaviour. -/
inductive Value where
  | undefined : Value
  | vnull : Value
  | vbool (b : Bool) : Value
  | vnum (n : Int) : Value
  | vstr (s : String) : Value
  | varr (elems : List Value) : Value
  | vobj (fields : List (String × Value)) : Value

/-- Test for the JS `undefined` value. -/
def isUndefined : Value → Bool
  | .undefined => true
  | _ => false

/-- Property read `m[k]` on a record: first binding for the key, if any. -/
def rget {α : Type} (m : List (String × α)) (k : String) : Option α :=
  match m with
  | [] => none
  | (k2, v) :: t => if k2 = k then some v else rget t k

/-- Property write `m[k] = v`: JS assignment updates an existing key in
place (keeping its position) and otherwise appends the key at the end. -/
def rset {α : Type} (m : List (String × α)) (k : String) (v : α) :
    List (String × α) :=
  match m with
  | [] => [(k, v)]
  | (k2, v2) :: t => if k2 = k then (k, v) :: t else (k2, v2) :: rset t k v

/-- Property deletion `delete m[k]`. -/
def rdel {α : Type} (m : List (String × α)) (k : String) :
    List (String × α) :=
  match m with
  | [] => []
  | (k2, v2) :: t => if k2 = k then t else (k2, v2) :: rdel t k

/-- The key list `Object.keys(m)` in insertion order. -/
def rkeys {α : Type} (m : List (String × α)) : List String :=
  m.map Prod.fst

/-- The idiom `if (!m[k]) m[k] = []; m[k].push(x)` used by the dependency
builder and by `sortRulesForEvaluation`. -/
def rpush {α : Type} (m : List (String × List α)) (k : String) (x : α) :
    List (String × List α) :=
  rset m k (((rget m k).getD []) ++ [x])

/-- String prefix test, the semantics of JS `String.prototype.startsWith`
(and of Lean's own `String.startsWith`), implemented on character lists so
that it computes by kernel reduction. -/
def jsStartsWith (s pre : String) : Bool :=
  pre.data.isPrefixOf s.data

/-- String suffix test, the semantics of JS `String.prototype.endsWith`. -/
def jsEndsWith (s suf : String) : Bool :=
  suf.data.isSuffixOf s.data

/-- `split(sep)` on a single-character separator, the semantics of JS
`String.prototype.split` (a trailing separator yields a trailing empty
segment, and splitting the empty string yields one empty segment). -/
def splitOnChar (sep : Char) : List Char → List (List Char)
  | [] => [[]]
  | c :: rest =>
    if c = sep then [] :: splitOnChar sep rest
    else
      match splitOnChar sep rest with
      | [] => [[c]]
      | g :: gs => (c :: g) :: gs

/-- Substring test, the semantics of JS `String.prototype.includes` for a
nonempty needle. -/
def containsSub (hay needle : List Char) : Bool :=
  match hay with
  | [] => needle.isPrefixOf []
  | _ :: t => needle.isPrefixOf hay || containsSub t needle

/-- Whitespace trim on both ends, the semantics of JS
`String.prototype.trim`. -/
def trimWs (l : List Char) : List Char :=
  ((l.dropWhile Char.isWhitespace).reverse.dropWhile Char.isWhitespace).reverse

/-- Value of a nonempty all-digit character list. -/
def digitsToNat (l : List Char) : Nat :=
  l.foldl (fun n c => 10 * n + (c.toNat - 48)) 0

/-- JavaScript truthiness of a value (`NaN` is not modelled). -/
def truthy : Value → Bool
  | .undefined => false
  | .vnull => false
  | .vbool b => b
  | .vnum n => decide (n ≠ 0)
  | .vstr s => decide (s ≠ "")
  | .varr _ => true
  | .vobj _ => true

/-- Parse of a property key as an array index, mirroring
`!isNaN(Number(key))` for the keys that arise from splitting a dotted path:
nonempty digit strings convert (with canonicalisation of leading zeros, as
`current[Number(key)]` does), and a blank key converts to 0 because
`Number('')` is 0.  Signed, hexadecimal and exponent forms are not
canonicalised by this model; for them JS property access with the original
string key coincides with access through `Number`, so routing them through
the string branch below is observationally the same. -/
def jsIndex (key : String) : Option Nat :=
  if key.data ≠ [] ∧ key.data.all Char.isDigit then some (digitsToNat key.data)
  else if trimWs key.data = [] then some 0 else none

/-- JS property access `v[key]` for the shapes `deepGet` can reach: object
fields, array indices, string character access and the `length` property of
arrays and strings.  Everything else yields `undefined`. -/
def getProp (v : Value) (key : String) : Value :=
  match jsIndex key with
  | some n =>
    match v with
    | .varr l => l.getD n .undefined
    | .vobj m => (rget m (toString n)).getD .undefined
    | .vstr s => ((s.data.get? n).map fun c => Value.vstr (String.mk [c])).getD .undefined
    | _ => .undefined
  | none =>
    match v with
    | .vobj m => (rget m key).getD .undefined
    | .varr l => if key = "length" then .vnum (l.length : Int) else .undefined
    | .vstr s => if key = "length" then .vnum (s.data.length : Int) else .undefined
    | _ => .undefined

/-- Bracket-notation normalisation of `deepGet`: the global regex replace
turning `[digits]` into `.digits` (a bracket without at least one digit and
a closing bracket is left untouched). -/
def normBrackets : List Char → List Char
  | [] => []
  | c :: rest =>
    if c = '[' then
      match h : rest.dropWhile Char.isDigit with
      | ']' :: tail =>
        if rest.takeWhile Char.isDigit = [] then c :: normBrackets rest
        else '.' :: (rest.takeWhile Char.isDigit ++ normBrackets tail)
      | _ => c :: normBrackets rest
    else c :: normBrackets rest
termination_by l => l.length
decreasing_by
  all_goals simp only [List.length_cons]
  all_goals try omega
  all_goals
    (have h1 : (rest.dropWhile Char.isDigit).length ≤ rest.length :=
      (List.dropWhile_suffix _).length_le
     rw [h] at h1
     simp at h1
     omega)

/-- Traversal loop of `deepGet`: walk the split path, returning the default
(`undefined`) as soon as the current value is null or undefined. -/
def deepGetGo : List String → Value → Value
  | [], cur => cur
  | k :: ks, cur =>
    match cur with
    | .undefined => .undefined
    | .vnull => .undefined
    | _ => deepGetGo ks (getProp cur k)

/-- `deepGet(obj, path)` of src/utils/deepGet.ts.  The `defaultValue`
parameter is omitted: every call site in the repository passes two
arguments, so the default is always `undefined`. -/
def deepGet (obj : Value) (path : String) : Value :=
  if truthy obj = false then .undefined
  else deepGetGo ((splitOnChar '.' (normBrackets path.data)).map String.mk) obj

mutual

/-- JS `String(v)` coercion for the values the engine can produce: arrays
join their elements with commas (null and undefined elements print as the
empty string, as `Array.prototype.toString` does) and plain objects print
as `[object Object]`. -/
def jsToString : Value → String
  | .undefined => "undefined"
  | .vnull => "null"
  | .vbool b => if b then "true" else "false"
  | .vnum n => toString n
  | .vstr s => s
  | .varr l => String.intercalate "," (jsToStringList l)
  | .vobj _ => "[object Object]"

/-- Element-wise stringification used by `jsToString` on arrays. -/
def jsToStringList : List Value → List String
  | [] => []
  | v :: t =>
    (match v with
     | .vnull => ""
     | .undefined => ""
     | w => jsToString w) :: jsToStringList t

end

/-- JS `Number(s)` on a string, as an optional integer (`none` is NaN).
A blank string converts to 0; an optional sign followed by digits converts
to the signed value.  Fractional, hexadecimal and exponent literals are not
modelled; no schema or rule in the repository uses them. -/
def strToNumber (s : String) : Option Int :=
  match trimWs s.data with
  | [] => some 0
  | '-' :: ds =>
    if ds ≠ [] ∧ ds.all Char.isDigit then some (-(digitsToNat ds : Int))
    else none
  | '+' :: ds =>
    if ds ≠ [] ∧ ds.all Char.isDigit then some ((digitsToNat ds : Int))
    else none
  | ds =>
    if ds.all Char.isDigit then some ((digitsToNat ds : Int))
    else none

/-- JS `Number(v)` coercion as an optional integer (`none` is NaN).  Arrays
and objects coerce through their string form, matching `ToPrimitive`. -/
def jsNumber : Value → Option Int
  | .undefined => none
  | .vnull => some 0
  | .vbool b => some (if b then 1 else 0)
  | .vnum n => some n
  | .vstr s => strToNumber s
  | .varr l => strToNumber (jsToString (.varr l))
  | .vobj _ => none

/-- JS strict equality `===` as used on evaluation results.  Arrays and
objects compare by reference in JS; two separately evaluated structures are
never the same reference, so they are modelled as unequal. -/
def jsEq : Value → Value → Bool
  | .undefined, .undefined => true
  | .vnull, .vnull => true
  | .vbool a, .vbool b => a == b
  | .vnum a, .vnum b => a == b
  | .vstr a, .vstr b => a == b
  | _, _ => false

/-- JS `String.prototype.includes`. -/
def strIncludes (hay needle : String) : Bool :=
  containsSub hay.data needle.data

/-- The comparison operator passed as `compareFn` to `handleComparison`. -/
inductive CmpOp where
  | gt : CmpOp
  | ge : CmpOp
  | lt : CmpOp
  | le : CmpOp

/-- Numeric branch of `handleComparison`. -/
def intCmp : CmpOp → Int → Int → Bool
  | .gt, a, b => decide (a > b)
  | .ge, a, b => decide (a ≥ b)
  | .lt, a, b => decide (a < b)
  | .le, a, b => decide (a ≤ b)

/-- Raw-value fallback of `handleComparison` when numeric conversion fails:
JS relational operators on two strings compare lexicographically; any other
combination that reaches this branch involves NaN and yields false. -/
def rawCmp : CmpOp → Value → Value → Bool
  | .gt, .vstr a, .vstr b => decide (a > b)
  | .ge, .vstr a, .vstr b => decide (a ≥ b)
  | .lt, .vstr a, .vstr b => decide (a < b)
  | .le, .vstr a, .vstr b => decide (a ≤ b)
  | _, _, _ => false

/-- The `EvaluationContext` of src/engine/jsonlogic.ts.  Each optional
member is a JS value (`undefined` when absent), so the evaluator's truthiness
tests on `context.data`/`context.globals`/`context.params` are faithful. -/
structure EvalContext where
  data : Value
  globals : Value
  params : Value

/-- Variable-reference resolution of `evaluate` (the `'var' in expr`
branch): a `globals.`-prefixed path reads only `context.globals`, a
`params.`-prefixed path reads only `context.params`, and an unprefixed path
reads `context.data` first, then falls back to `context.globals` and
`context.params` without the prefix. -/
def evalVar (path : String) (ctx : EvalContext) : Value :=
  if jsStartsWith path "globals." then
    if truthy ctx.globals ∧ isUndefined (deepGet ctx.globals (path.drop ("globals.".length))) = false then
      deepGet ctx.globals (path.drop ("globals.".length))
    else .undefined
  else if jsStartsWith path "params." then
    if truthy ctx.params ∧ isUndefined (deepGet ctx.params (path.drop ("params.".length))) = false then
      deepGet ctx.params (path.drop ("params.".length))
    else .undefined
  else
    if truthy ctx.data ∧ isUndefined (deepGet ctx.data path) = false then
      deepGet ctx.data path
    else if truthy ctx.globals ∧ isUndefined (deepGet ctx.globals path) = false then
      deepGet ctx.globals path
    else if truthy ctx.params ∧ isUndefined (deepGet ctx.params path) = false then
      deepGet ctx.params path
    else .undefined

mutual

/-- The JSONLogic evaluator `evaluate(expr, context)` of
src/engine/jsonlogic.ts.  Null, undefined and primitives return as-is; an
object containing a `var` key resolves a variable reference (a non-string
`var` path would throw in JS and is modelled as undefined); otherwise the
first entry of the object dispatches on the operator vocabulary, unknown
operators evaluating to false with a console warning (a non-fatal effect
outside the value-level model).  A nonempty array reaches the dispatch with
its first index `0` as the operator, hence evaluates to false; an empty
array has no entries and returns itself. -/
def evaluate (expr : Value) (ctx : EvalContext) : Value :=
  match expr with
  | .undefined => .undefined
  | .vnull => .vnull
  | .vstr s => .vstr s
  | .vnum n => .vnum n
  | .vbool b => .vbool b
  | .varr [] => .varr []
  | .varr (_ :: _) => .vbool false
  | .vobj m =>
    match rget m "var" with
    | some (.vstr p) => evalVar p ctx
    | some _ => .undefined
    | none =>
      match m with
      | [] => .vobj []
      | (op, operands) :: _ =>
        if op = "==" then .vbool (handleEquals operands ctx)
        else if op = "!=" then .vbool (! handleEquals operands ctx)
        else if op = ">" then .vbool (handleComparison operands ctx .gt)
        else if op = ">=" then .vbool (handleComparison operands ctx .ge)
        else if op = "<" then .vbool (handleComparison operands ctx .lt)
        else if op = "<=" then .vbool (handleComparison operands ctx .le)
        else if op = "and" then .vbool (handleAnd operands ctx)
        else if op = "or" then .vbool (handleOr operands ctx)
        else if op = "not" then .vbool (! truthy (evaluate operands ctx))
        else if op = "in" then .vbool (handleIn operands ctx)
        else if op = "empty" then .vbool (handleEmpty operands ctx)
        else if op = "contains" then .vbool (handleContains operands ctx)
        else if op = "startsWith" then .vbool (handleStartsWith operands ctx)
        else if op = "endsWith" then .vbool (handleEndsWith operands ctx)
        else if op = "count" then .vnum (handleCount operands ctx)
        else if op = "if" then handleIf operands ctx
        else .vbool false
termination_by (sizeOf expr, 0)

/-- `handleEquals`: strict equality of the two evaluated operands; false
unless the operand list is an array of length two. -/
def handleEquals (operands : Value) (ctx : EvalContext) : Bool :=
  match operands with
  | .varr [a, b] => jsEq (evaluate a ctx) (evaluate b ctx)
  | _ => false
termination_by (sizeOf operands, 1)

/-- `handleComparison`: numeric comparison when both evaluated operands
convert to numbers, else the raw comparison fallback. -/
def handleComparison (operands : Value) (ctx : EvalContext) (op : CmpOp) : Bool :=
  match operands with
  | .varr [a, b] =>
    match jsNumber (evaluate a ctx), jsNumber (evaluate b ctx) with
    | some x, some y => intCmp op x y
    | some _, none => rawCmp op (evaluate a ctx) (evaluate b ctx)
    | none, _ => rawCmp op (evaluate a ctx) (evaluate b ctx)
  | _ => false
termination_by (sizeOf operands, 1)

/-- `handleAnd`: short-circuit conjunction over an array of operands, or
the truthiness of a single non-array operand. -/
def handleAnd (operands : Value) (ctx : EvalContext) : Bool :=
  match operands with
  | .varr l => andList l ctx
  | v => truthy (evaluate v ctx)
termination_by (sizeOf operands, 1)

/-- Conjunction loop of `handleAnd`. -/
def andList (l : List Value) (ctx : EvalContext) : Bool :=
  match l with
  | [] => true
  | x :: t => if truthy (evaluate x ctx) then andList t ctx else false
termination_by (sizeOf l, 1)

/-- `handleOr`: short-circuit disjunction over an array of operands, or the
truthiness of a single non-array operand. -/
def handleOr (operands : Value) (ctx : EvalContext) : Bool :=
  match operands with
  | .varr l => orList l ctx
  | v => truthy (evaluate v ctx)
termination_by (sizeOf operands, 1)

/-- Disjunction loop of `handleOr`. -/
def orList (l : List Value) (ctx : EvalContext) : Bool :=
  match l with
  | [] => false
  | x :: t => if truthy (evaluate x ctx) then true else orList t ctx
termination_by (sizeOf l, 1)

/-- `handleIn`: membership of the evaluated needle in an evaluated array
haystack, or substring test when both evaluate to strings. -/
def handleIn (operands : Value) (ctx : EvalContext) : Bool :=
  match operands with
  | .varr [a, b] =>
    match evaluate b ctx, evaluate a ctx with
    | .varr l, needle => l.any (fun x => jsEq x needle)
    | .vstr hay, .vstr needle => strIncludes hay needle
    | _, _ => false
  | _ => false
termination_by (sizeOf operands, 1)

/-- `handleEmpty`: null, undefined, the empty string, an empty array and an
object with no keys are empty; everything else is not. -/
def handleEmpty (operands : Value) (ctx : EvalContext) : Bool :=
  match evaluate operands ctx with
  | .undefined => true
  | .vnull => true
  | .vstr s => s == ""
  | .varr l => l.isEmpty
  | .vobj m => m.isEmpty
  | _ => false
termination_by (sizeOf operands, 1)

/-- `handleContains`: array membership of the evaluated item, or substring
test when container and item both evaluate to strings. -/
def handleContains (operands : Value) (ctx : EvalContext) : Bool :=
  match operands with
  | .varr [a, b] =>
    match evaluate a ctx, evaluate b ctx with
    | .varr l, item => l.any (fun x => jsEq x item)
    | .vstr container, .vstr item => strIncludes container item
    | _, _ => false
  | _ => false
termination_by (sizeOf operands, 1)

/-- `handleStartsWith` on two evaluated string operands. -/
def handleStartsWith (operands : Value) (ctx : EvalContext) : Bool :=
  match operands with
  | .varr [a, b] =>
    match evaluate a ctx, evaluate b ctx with
    | .vstr s, .vstr p => jsStartsWith s p
    | _, _ => false
  | _ => false
termination_by (sizeOf operands, 1)

/-- `handleEndsWith` on two evaluated string operands. -/
def handleEndsWith (operands : Value) (ctx : EvalContext) : Bool :=
  match operands with
  | .varr [a, b] =>
    match evaluate a ctx, evaluate b ctx with
    | .vstr s, .vstr p => jsEndsWith s p
    | _, _ => false
  | _ => false
termination_by (sizeOf operands, 1)

/-- `handleCount`: length of an evaluated array, string or object key set;
0 for null or undefined; else 1 or 0 by truthiness. -/
def handleCount (operands : Value) (ctx : EvalContext) : Int :=
  match evaluate operands ctx with
  | .undefined => 0
  | .vnull => 0
  | .varr l => (l.length : Int)
  | .vstr s => (s.data.length : Int)
  | .vobj m => (m.length : Int)
  | v => if truthy v then 1 else 0
termination_by (sizeOf operands, 1)

/-- `handleIf`: ternary conditional; undefined unless the operand list is
an array of length at least two, and undefined when the condition is false
and no else branch is present. -/
def handleIf (operands : Value) (ctx : EvalContext) : Value :=
  match operands with
  | .varr (c :: t :: rest) =>
    if truthy (evaluate c ctx) then evaluate t ctx
    else
      match rest with
      | e :: _ => evaluate e ctx
      | [] => .undefined
  | _ => .undefined
termination_by (sizeOf operands, 1)

end

mutual

/-- The traversal of `extractVariablePaths`: collect the `var` path of
every variable-reference node (without descending into it), recursing into
array elements and object values otherwise.  A non-string `var` path is
collected as nothing here; in JS it would be pushed raw and crash the
dependency builder's `startsWith` downstream. -/
def extractVarPathsVal : Value → List String
  | .undefined => []
  | .vnull => []
  | .vbool _ => []
  | .vnum _ => []
  | .vstr _ => []
  | .vobj m =>
    match rget m "var" with
    | some (.vstr p) => [p]
    | some _ => []
    | none => extractVarPathsFields m
  | .varr l => extractVarPathsElems l

/-- Array-element traversal of `extractVariablePaths`. -/
def extractVarPathsElems : List Value → List String
  | [] => []
  | v :: t => extractVarPathsVal v ++ extractVarPathsElems t

/-- Object-value traversal of `extractVariablePaths`. -/
def extractVarPathsFields : List (String × Value) → List String
  | [] => []
  | (_, v) :: t => extractVarPathsVal v ++ extractVarPathsFields t

end

/-- Duplicate removal in first-occurrence order, as the spread of a JS
`Set` built from a list performs. -/
def dedupFirst (l : List String) : List String :=
  l.foldl (fun acc p => if p ∈ acc then acc else acc ++ [p]) []

/-- `extractVariablePaths(expr)` of src/engine/jsonlogic.ts: every distinct
variable path referenced by the expression, first occurrences first. -/
def extractVariablePaths (expr : Value) : List String :=
  dedupFirst (extractVarPathsVal expr)

/-- An `EngineAction`.  The `optionValue` member is omitted: no function
embedded here reads it (`DISABLE_OPTION`/`ENABLE_OPTION` have no case in
`applyActions`).  The optional `value` member is a JS value, `undefined` when
absent. -/
structure EngineAction where
  type : String
  target : String
  value : Value

/-- The `then`/`else` member of a rule: absent, a single action, or an
action array. -/
inductive ActionSpec where
  | missing : ActionSpec
  | one (a : EngineAction) : ActionSpec
  | many (l : List EngineAction) : ActionSpec

/-- The normalisation `Array.isArray(x) ? x : x ? [x] : []` applied to a
rule's `then`/`else` member everywhere in the engine (a single action
object is truthy, so it becomes a one-element list). -/
def actionsOf : ActionSpec → List EngineAction
  | .missing => []
  | .one a => [a]
  | .many l => l

/-- A `Rule`.  The members `then` and `else` are keywords in Lean and are
embedded as `thenA`/`elseA`. -/
structure Rule where
  id : String
  when : Value
  thenA : ActionSpec
  elseA : ActionSpec

/-- An `OptionsConfig`.  Only the members the engine reads are embedded:
the `source` discriminator and the static `options` list (a JS value;
`undefined` for remote descriptors, whose url/method/etc. are opaque to the
engine). -/
structure OptionsConfig where
  source : String
  options : Value

/-- A `FieldBase`.  Presentation-only members (label, placeholder,
validators, table configuration, ...) are omitted: no engine function
embedded here reads them.  `defaultValue` and `visibilityRule` are JS
values with `undefined` for absence (the engine tests them with `!== undefined`
and truthiness respectively); `disabled` defaults absence to `false`, which
is exactly how `field.disabled || false` evaluates; an absent `rules` array
behaves identically to an empty one. -/
structure FieldBase where
  id : String
  type : String
  defaultValue : Value
  disabled : Bool
  visibilityRule : Value
  rules : List Rule
  options : Option OptionsConfig

/-- A layout row item: only `fieldId` is read by the engine. -/
structure SectionRowItem where
  fieldId : String

/-- A layout row: only `items` is read by the engine. -/
structure SectionRow where
  items : List SectionRowItem

/-- A `SubSection`.  As with fields, absent arrays are embedded as empty
ones (all uses are guarded iterations), and presentation members are
omitted.  Subsection `rows` are read only by the renderer, not the
engine. -/
structure SubSection where
  id : String
  visibilityRule : Value
  disabled : Bool
  fields : List FieldBase

/-- A `Section`. -/
structure Section where
  id : String
  visibilityRule : Value
  disabled : Bool
  rows : List SectionRow
  fields : List FieldBase
  subsections : List SubSection

/-- A `FormSchema`.  `version`, `meta`, `navigation` and `submission` are
opaque to the engine and omitted.  An absent `globals`/`formRules` member
behaves identically to an empty one at every use site. -/
structure FormSchema where
  globals : List (String × Value)
  sections : List Section
  formRules : List Rule

/-- Runtime UI state of a section. -/
structure SectionUIState where
  visible : Bool
  disabled : Bool

/-- Runtime UI state of a field.  `error` and `options` hold whatever JS
value was assigned (`undefined` initially / for remote options). -/
structure FieldUIState where
  visible : Bool
  disabled : Bool
  error : Value
  options : Value

/-- The `FormUIState` maps. -/
structure FormUIState where
  sections : List (String × SectionUIState)
  fields : List (String × FieldUIState)

/-- One entry of `DependencyGraph.rules`: the rule and the variable paths
its condition reads. -/
structure RuleEntry where
  rule : Rule
  reads : List String

/-- The `DependencyGraph`. -/
structure DependencyGraph where
  byField : List (String × List String)
  rules : List (String × RuleEntry)

/-- A `FormSnapshot`. -/
structure FormSnapshot where
  schema : FormSchema
  globals : List (String × Value)
  values : List (String × Value)
  ui : FormUIState
  errors : List (String × Value)
  deps : Option DependencyGraph

/-- The last dotted segment of a path: `fieldPath.split('.').pop() ||
fieldPath` (when the popped segment is the empty string, which is falsy,
the whole path is used). -/
def lastSegment (p : String) : String :=
  match (splitOnChar '.' p.data).getLast? with
  | some s => if s = [] then p else String.mk s
  | none => p

/-- The guard `fieldPath.startsWith('globals.') ||
fieldPath.startsWith('params.')` that excludes context paths from field
dependency tracking. -/
def skipContextPath (p : String) : Bool :=
  jsStartsWith p "globals." || jsStartsWith p "params."

/-- The repeated indexing loop of `buildDependencyGraph`: push the rule id
under the last segment of every read.  Four of the five sites guard with
`skipContextPath` (`skip = true`); the field-visibility site does not
(`skip = false`). -/
def indexReads (byField : List (String × List String)) (reads : List String)
    (ruleId : String) (skip : Bool) : List (String × List String) :=
  reads.foldl
    (fun bf p =>
      if skip && skipContextPath p then bf
      else rpush bf (lastSegment p) ruleId)
    byField

/-- `getFieldsFromSection` of src/engine/deps.ts: the section's own fields
followed by the fields of each subsection. -/
def getFieldsFromSection (sec : Section) : List FieldBase :=
  sec.fields ++ (sec.subsections.map (fun sub => sub.fields)).flatten

/-- Registration of one rule in the graph: record the rule with its reads
and index the reads. -/
def addRule (g : DependencyGraph) (rule : Rule) (skip : Bool) : DependencyGraph :=
  let reads := extractVariablePaths rule.when
  ⟨indexReads g.byField reads rule.id skip, rset g.rules rule.id ⟨rule, reads⟩⟩

/-- `buildDependencyGraph(schema)` of src/engine/deps.ts: register every
form-level rule; for every section, subsection and field with a truthy
`visibilityRule`, synthesize the implicit show/hide rule with its
deterministic id; register every field-level rule.  Every site but the
synthesized field-visibility rules skips `globals.`/`params.` reads when
indexing.  `detectCycles` only emits a console warning and does not affect
the returned graph, so it has no value-level embedding. -/
def buildDependencyGraph (schema : FormSchema) : DependencyGraph :=
  let g0 : DependencyGraph := ⟨[], []⟩
  let g1 := schema.formRules.foldl (fun g rule => addRule g rule true) g0
  schema.sections.foldl
    (fun g sec =>
      let g2 :=
        if truthy sec.visibilityRule then
          addRule g
            ⟨"section_" ++ sec.id ++ "_visibility",
             sec.visibilityRule,
             .many [⟨"SHOW_SECTION", sec.id, .vbool true⟩],
             .many [⟨"HIDE_SECTION", sec.id, .vbool false⟩]⟩
            true
        else g
      let g3 := sec.subsections.foldl
        (fun g4 sub =>
          if truthy sub.visibilityRule then
            addRule g4
              ⟨"subsection_" ++ sub.id ++ "_visibility",
               sub.visibilityRule,
               .many [⟨"SHOW_SECTION", "subsection_" ++ sub.id, .vbool true⟩],
               .many [⟨"HIDE_SECTION", "subsection_" ++ sub.id, .vbool false⟩]⟩
              true
          else g4)
        g2
      (getFieldsFromSection sec).foldl
        (fun g5 f =>
          let g6 :=
            if truthy f.visibilityRule then
              addRule g5
                ⟨"field_" ++ f.id ++ "_visibility",
                 f.visibilityRule,
                 .many [⟨"SHOW_FIELD", f.id, .vbool true⟩],
                 .many [⟨"HIDE_FIELD", f.id, .vbool false⟩]⟩
                false
            else g5
          f.rules.foldl (fun g7 rule => addRule g7 rule true) g6)
        g3)
    g1

/-- `getRulesForField(fieldId, deps)`: the by-field index entry, or no
rules. -/
def getRulesForField (fieldId : String) (deps : DependencyGraph) : List String :=
  (rget deps.byField fieldId).getD []

/-- State of the depth-first traversal of `sortRulesForEvaluation`: the
`visited` set (a list only ever extended with ids not already present) and
the accumulated `sorted` output. -/
structure SortState where
  visited : List String
  sorted : List String

/-- The `writesTo` map of `sortRulesForEvaluation`: field id to the
candidate rule ids carrying a `SET_VALUE` action on it.  (The source's
`ruleData && ruleData.rule` guard degenerates to the lookup succeeding,
since every stored entry carries its rule.) -/
def buildWritesTo (ruleIds : List String) (deps : DependencyGraph) :
    List (String × List String) :=
  ruleIds.foldl
    (fun wt rid =>
      match rget deps.rules rid with
      | none => wt
      | some rd =>
        (actionsOf rd.rule.thenA ++ actionsOf rd.rule.elseA).foldl
          (fun wt2 a => if a.type = "SET_VALUE" then rpush wt2 a.target rid else wt2)
          wt)
    []

mutual

/-- The recursive `visit` of `sortRulesForEvaluation`.  The source's
recursion terminates because every recursive call is guarded by
`!visited.has(writerId)` and immediately marks its argument visited, so the
depth is bounded by the number of unvisited candidate ids; the `fuel`
parameter makes that bound explicit, and `ruleIds.length` (used by
`sortRulesForEvaluation`) always suffices. -/
def visitF (fuel : Nat) (ruleIds : List String) (deps : DependencyGraph)
    (writesTo : List (String × List String)) (rid : String) (st : SortState) :
    SortState :=
  match fuel with
  | 0 => st
  | fuel + 1 =>
    if rid ∈ st.visited then st
    else
      let st1 : SortState := ⟨rid :: st.visited, st.sorted⟩
      let st2 :=
        match rget deps.rules rid with
        | none => st1
        | some rd => goReads fuel ruleIds deps writesTo rid rd.reads st1
      ⟨st2.visited, st2.sorted ++ [rid]⟩
termination_by (fuel, 0, 0)

/-- Loop of `visit` over the rule's reads: skip `globals.`/`params.`
paths, then consider the writers of the read's last segment. -/
def goReads (fuel : Nat) (ruleIds : List String) (deps : DependencyGraph)
    (writesTo : List (String × List String)) (rid : String) (ps : List String)
    (st : SortState) : SortState :=
  match ps with
  | [] => st
  | p :: ps2 =>
    if skipContextPath p then goReads fuel ruleIds deps writesTo rid ps2 st
    else
      goReads fuel ruleIds deps writesTo rid ps2
        (goWriters fuel ruleIds deps writesTo rid
          ((rget writesTo (lastSegment p)).getD []) st)
termination_by (fuel, 2, ps.length)

/-- Loop of `visit` over the writers of one read: visit every writer that
is a different, not-yet-visited candidate rule. -/
def goWriters (fuel : Nat) (ruleIds : List String) (deps : DependencyGraph)
    (writesTo : List (String × List String)) (rid : String) (ws : List String)
    (st : SortState) : SortState :=
  match ws with
  | [] => st
  | w :: ws2 =>
    if w ≠ rid ∧ w ∈ ruleIds ∧ w ∉ st.visited then
      goWriters fuel ruleIds deps writesTo rid ws2
        (visitF fuel ruleIds deps writesTo w st)
    else goWriters fuel ruleIds deps writesTo rid ws2 st
termination_by (fuel, 1, ws.length)

end

/-- `sortRulesForEvaluation(ruleIds, deps)` of src/engine/deps.ts: build
the `writesTo` map, then depth-first visit each candidate id, pushing a
rule to the output only after visiting the candidate writers of the fields
it reads. -/
def sortRulesForEvaluation (ruleIds : List String) (deps : DependencyGraph) :
    List String :=
  let writesTo := buildWritesTo ruleIds deps
  (ruleIds.foldl
    (fun st rid => visitF ruleIds.length ruleIds deps writesTo rid st)
    ⟨[], []⟩).sorted

/-- `getAllFieldsFromSection` of src/engine/engine.ts (unlike
`getFieldsFromSection` of deps.ts, it never looks at subsections): collect
the section's `fields` array into a map keyed by id, list the fields
referenced by layout rows first (deduplicated by id), then append the
remaining mapped fields.  The `schema` parameter is unused by the source
body and kept for signature fidelity. -/
def getAllFieldsFromSection (sec : Section) (schema : FormSchema) :
    List FieldBase :=
  let fieldMap := sec.fields.foldl (fun m f => rset m f.id f)
    ([] : List (String × FieldBase))
  let fromRows := sec.rows.foldl
    (fun acc row =>
      row.items.foldl
        (fun acc2 item =>
          match rget fieldMap item.fieldId with
          | some f =>
            if acc2.any (fun g => g.id == f.id) then acc2 else acc2 ++ [f]
          | none => acc2)
        acc)
    []
  fieldMap.foldl
    (fun acc kv =>
      if acc.any (fun g => g.id == kv.2.id) then acc else acc ++ [kv.2])
    fromRows

/-- `seedUI(schema)` of src/engine/engine.ts: every section gets a UI entry
(visible, with its declared disabled default) and every field reachable
through `getAllFieldsFromSection` gets a UI entry (visible, declared
disabled default, no error, static options when declared). -/
def seedUI (schema : FormSchema) : FormUIState :=
  schema.sections.foldl
    (fun ui sec =>
      let ui1 : FormUIState := ⟨rset ui.sections sec.id ⟨true, sec.disabled⟩, ui.fields⟩
      (getAllFieldsFromSection sec schema).foldl
        (fun ui2 f =>
          ⟨ui2.sections,
           rset ui2.fields f.id
             ⟨true, f.disabled, .undefined,
              match f.options with
              | some oc => if oc.source = "STATIC" then oc.options else .undefined
              | none => .undefined⟩⟩)
        ui1)
    ⟨[], []⟩

/-- JS word-character class used by the template regex. -/
def isWordChar (c : Char) : Bool :=
  c.isAlphanum || c = '_'

/-- The test `value.includes('$\x7bglobals.')` of `initialValues`. -/
def hasGlobalsTemplate (s : String) : Bool :=
  containsSub s.data ("$\x7bglobals.".data)

/-- The global regex replace of `initialValues`: each occurrence of a
dollar-brace `globals.`-word template is replaced by the named global's
string form when truthy, and by the empty string otherwise. -/
def renderGlobalsTemplate (g : List (String × Value)) : List Char → List Char
  | [] => []
  | c :: rest =>
    if ("$\x7bglobals.".toList).isPrefixOf (c :: rest) then
      match h : ((c :: rest).drop 10).dropWhile isWordChar with
      | '\x7d' :: tail =>
        if ((c :: rest).drop 10).takeWhile isWordChar = [] then
          c :: renderGlobalsTemplate g rest
        else
          (match rget g (String.mk (((c :: rest).drop 10).takeWhile isWordChar)) with
           | some v => if truthy v then (jsToString v).toList else []
           | none => []) ++ renderGlobalsTemplate g tail
      | _ => c :: renderGlobalsTemplate g rest
    else c :: renderGlobalsTemplate g rest
termination_by l => l.length
decreasing_by
  all_goals simp only [List.length_cons]
  all_goals try omega
  all_goals
    (have h1 : (((c :: rest).drop 10).dropWhile isWordChar).length ≤
        ((c :: rest).drop 10).length :=
      (List.dropWhile_suffix _).length_le
     rw [h] at h1
     simp at h1 ⊢
     omega)

/-- `initialValues(schema, globals)` of src/engine/engine.ts: fields with a
declared default keep it (string defaults containing a `globals.` template
are rendered against the call-time globals, falling back to the schema's);
all other fields get the type-appropriate empty default of the source's
switch: false for checkbox and switch, an empty array for multi-select,
null for number, the empty string otherwise. -/
def initialValues (schema : FormSchema)
    (globals : Option (List (String × Value))) : List (String × Value) :=
  schema.sections.foldl
    (fun values sec =>
      (getAllFieldsFromSection sec schema).foldl
        (fun vs f =>
          if isUndefined f.defaultValue = false then
            let v2 :=
              match f.defaultValue with
              | .vstr s =>
                if hasGlobalsTemplate s then
                  .vstr (String.mk
                    (renderGlobalsTemplate (globals.getD schema.globals) s.toList))
                else .vstr s
              | w => w
            rset vs f.id v2
          else
            rset vs f.id
              (match f.type with
               | "checkbox" => .vbool false
               | "switch" => .vbool false
               | "multi-select" => .varr []
               | "number" => .vnull
               | _ => .vstr ""))
        values)
    []

/-- `evaluateRules(ruleIds, snapshot, params?)` of src/engine/engine.ts:
without a dependency graph there are no actions; otherwise sort the
candidate ids, then for each (known) rule evaluate its condition against
data = the snapshot's values, the snapshot's globals and the call-time
params, collecting the normalised `then` actions on a truthy result and the
`else` actions otherwise. -/
def evaluateRules (ruleIds : List String) (snapshot : FormSnapshot)
    (params : Option (List (String × Value))) : List EngineAction :=
  match snapshot.deps with
  | none => []
  | some deps =>
    (sortRulesForEvaluation ruleIds deps).foldl
      (fun actions rid =>
        match rget deps.rules rid with
        | none => actions
        | some rd =>
          let ctx : EvalContext :=
            ⟨.vobj snapshot.values, .vobj snapshot.globals,
             match params with
             | some p => .vobj p
             | none => .undefined⟩
          if truthy (evaluate rd.rule.when ctx) then
            actions ++ actionsOf rd.rule.thenA
          else actions ++ actionsOf rd.rule.elseA)
      []

/-- Case `SHOW_SECTION` of the `applyActions` switch: set `visible` on an
existing section UI entry. -/
def applyShowSection (s : FormSnapshot) (t : String) : FormSnapshot :=
  match rget s.ui.sections t with
  | some u =>
    ⟨s.schema, s.globals, s.values,
     ⟨rset s.ui.sections t ⟨true, u.disabled⟩, s.ui.fields⟩, s.errors, s.deps⟩
  | none => s

/-- Case `HIDE_SECTION`: clear `visible` on an existing section UI entry. -/
def applyHideSection (s : FormSnapshot) (t : String) : FormSnapshot :=
  match rget s.ui.sections t with
  | some u =>
    ⟨s.schema, s.globals, s.values,
     ⟨rset s.ui.sections t ⟨false, u.disabled⟩, s.ui.fields⟩, s.errors, s.deps⟩
  | none => s

/-- Case `SHOW_FIELD`: set `visible` on an existing field UI entry. -/
def applyShowField (s : FormSnapshot) (t : String) : FormSnapshot :=
  match rget s.ui.fields t with
  | some u =>
    ⟨s.schema, s.globals, s.values,
     ⟨s.ui.sections, rset s.ui.fields t ⟨true, u.disabled, u.error, u.options⟩⟩,
     s.errors, s.deps⟩
  | none => s

/-- Case `HIDE_FIELD`: clear `visible` on an existing field UI entry. -/
def applyHideField (s : FormSnapshot) (t : String) : FormSnapshot :=
  match rget s.ui.fields t with
  | some u =>
    ⟨s.schema, s.globals, s.values,
     ⟨s.ui.sections, rset s.ui.fields t ⟨false, u.disabled, u.error, u.options⟩⟩,
     s.errors, s.deps⟩
  | none => s

/-- Cases `ENABLE`/`DISABLE`: both a section and a field UI entry with the
target id are updated when present (`d` is the new `disabled` flag). -/
def applySetDisabled (s : FormSnapshot) (t : String) (d : Bool) : FormSnapshot :=
  let ui1 :=
    match rget s.ui.sections t with
    | some u => rset s.ui.sections t ⟨u.visible, d⟩
    | none => s.ui.sections
  let ui2 :=
    match rget s.ui.fields t with
    | some u => rset s.ui.fields t ⟨u.visible, d, u.error, u.options⟩
    | none => s.ui.fields
  ⟨s.schema, s.globals, s.values, ⟨ui1, ui2⟩, s.errors, s.deps⟩

/-- Case `SET_OPTIONS`: replace the options of an existing field UI
entry. -/
def applySetOptions (s : FormSnapshot) (t : String) (v : Value) : FormSnapshot :=
  match rget s.ui.fields t with
  | some u =>
    ⟨s.schema, s.globals, s.values,
     ⟨s.ui.sections, rset s.ui.fields t ⟨u.visible, u.disabled, u.error, v⟩⟩,
     s.errors, s.deps⟩
  | none => s

/-- Case `SET_ERROR`: write the `errors` map unconditionally and mirror
into the field UI entry when present. -/
def applySetError (s : FormSnapshot) (t : String) (v : Value) : FormSnapshot :=
  let errors2 := rset s.errors t v
  match rget s.ui.fields t with
  | some u =>
    ⟨s.schema, s.globals, s.values,
     ⟨s.ui.sections, rset s.ui.fields t ⟨u.visible, u.disabled, v, u.options⟩⟩,
     errors2, s.deps⟩
  | none => ⟨s.schema, s.globals, s.values, s.ui, errors2, s.deps⟩

/-- Case `CLEAR_ERROR`: delete from the `errors` map unconditionally and
clear the field UI entry's inline error when present. -/
def applyClearError (s : FormSnapshot) (t : String) : FormSnapshot :=
  let errors2 := rdel s.errors t
  match rget s.ui.fields t with
  | some u =>
    ⟨s.schema, s.globals, s.values,
     ⟨s.ui.sections, rset s.ui.fields t ⟨u.visible, u.disabled, .undefined, u.options⟩⟩,
     errors2, s.deps⟩
  | none => ⟨s.schema, s.globals, s.values, s.ui, errors2, s.deps⟩

/-- One case of the `applyActions` switch applied to the (already cloned)
snapshot, dispatching on the action type string exactly as the source
switch does.  Show/hide, enable/disable and set-options updates are guarded
on an existing UI entry; `SET_VALUE` writes `values` unconditionally;
`SET_ERROR`/`CLEAR_ERROR` write the `errors` map unconditionally and
mirror into the field UI entry when present; any other action type
(including `DISABLE_OPTION`/`ENABLE_OPTION`) falls through the switch
unhandled. -/
def applyAction (s : FormSnapshot) (action : EngineAction) : FormSnapshot :=
  if action.type = "SHOW_SECTION" then applyShowSection s action.target
  else if action.type = "HIDE_SECTION" then applyHideSection s action.target
  else if action.type = "SHOW_FIELD" then applyShowField s action.target
  else if action.type = "HIDE_FIELD" then applyHideField s action.target
  else if action.type = "ENABLE" then applySetDisabled s action.target false
  else if action.type = "DISABLE" then applySetDisabled s action.target true
  else if action.type = "SET_VALUE" then
    ⟨s.schema, s.globals, rset s.values action.target action.value, s.ui,
     s.errors, s.deps⟩
  else if action.type = "SET_OPTIONS" then applySetOptions s action.target action.value
  else if action.type = "SET_ERROR" then applySetError s action.target action.value
  else if action.type = "CLEAR_ERROR" then applyClearError s action.target
  else s

/-- `applyActions(actions, snapshot)` of src/engine/engine.ts: the source
shallow-clones the snapshot's maps and then mutates the clone per action in
order; in the pure embedding the clone is the identity and the loop is a
fold. -/
def applyActions (actions : List EngineAction) (snapshot : FormSnapshot) :
    FormSnapshot :=
  actions.foldl applyAction snapshot

/-- `createSnapshot(schema, globals)` of src/engine/engine.ts: build the
graph, seed the UI, compute initial values, then evaluate every rule once
and apply the resulting actions. -/
def createSnapshot (schema : FormSchema)
    (globals : Option (List (String × Value))) : FormSnapshot :=
  let deps := buildDependencyGraph schema
  let ui := seedUI schema
  let values := initialValues schema globals
  let snapshot : FormSnapshot :=
    ⟨schema, globals.getD [], values, ui, [], some deps⟩
  applyActions (evaluateRules (rkeys deps.rules) snapshot none) snapshot

/-- `updateSnapshot(snapshot, fieldId, value)` of src/engine/engine.ts: set
the value, then evaluate and apply only the rules indexed under the changed
field. -/
def updateSnapshot (snapshot : FormSnapshot) (fieldId : String)
    (value : Value) : FormSnapshot :=
  let newSnapshot : FormSnapshot :=
    ⟨snapshot.schema, snapshot.globals, rset snapshot.values fieldId value,
     snapshot.ui, snapshot.errors, snapshot.deps⟩
  match snapshot.deps with
  | none => newSnapshot
  | some deps =>
    applyActions
      (evaluateRules (getRulesForField fieldId deps) newSnapshot none)
      newSnapshot

/-- `buildPayload(snapshot, stripHidden, stripDisabled)` of
src/engine/engine.ts: copy the values map key by key, skipping a key whose
field UI entry exists and is hidden when `stripHidden`, and one whose entry
exists and is disabled when `stripDisabled`. -/
def buildPayload (snapshot : FormSnapshot) (stripHidden stripDisabled : Bool) :
    List (String × Value) :=
  (rkeys snapshot.values).foldl
    (fun payload fieldId =>
      if stripHidden &&
          (match rget snapshot.ui.fields fieldId with
           | some u => !u.visible
           | none => false) then payload
      else if stripDisabled &&
          (match rget snapshot.ui.fields fieldId with
           | some u => u.disabled
           | none => false) then payload
      else rset payload fieldId ((rget snapshot.values fieldId).getD .undefined))
    []

/-- Specification-side variable resolution, stated from the spec's own
words (the refinement target for the variable-reference contract): a
`globals.`-prefixed path reads only `context.globals` with the prefix
stripped, returning undefined when the stripped path is absent; a
`params.`-prefixed path reads only `context.params` likewise; any other
path is looked up in `context.data` first, falling back to
`context.globals` and then `context.params` without prefix, returning
undefined when all three miss. -/
def specVarResolve (p : String) (ctx : EvalContext) : Value :=
  if jsStartsWith p "globals." then
    deepGet ctx.globals (p.drop ("globals.".length))
  else if jsStartsWith p "params." then
    deepGet ctx.params (p.drop ("params.".length))
  else
    if isUndefined (deepGet ctx.data p) = false then deepGet ctx.data p
    else if isUndefined (deepGet ctx.globals p) = false then deepGet ctx.globals p
    else deepGet ctx.params p

/-- The actions `updateSnapshot` computes and applies for one field edit:
the rules indexed under the edited field, evaluated against the snapshot
with the new value already in place. -/
def updateActions (snapshot : FormSnapshot) (fieldId : String) (value : Value) :
    List EngineAction :=
  match snapshot.deps with
  | none => []
  | some deps =>
    evaluateRules (getRulesForField fieldId deps)
      ⟨snapshot.schema, snapshot.globals, rset snapshot.values fieldId value,
       snapshot.ui, snapshot.errors, snapshot.deps⟩ none

/-- Number of candidate rule ids not yet visited; the fuel bound of the
depth-first sort. -/
def unvisCount (ruleIds visited : List String) : Nat :=
  ruleIds.countP (fun x => decide (x ∉ visited))

/-- Invariant of the depth-first sort relative to the ghost recursion
stack `S`: the visited set is exactly the output plus the stack, stack
members are not yet output, the output is duplicate-free, and only
candidate ids are ever visited. -/
def SortInv (ruleIds S : List String) (st : SortState) : Prop :=
  (∀ x, x ∈ st.visited ↔ (x ∈ st.sorted ∨ x ∈ S)) ∧
  (∀ x ∈ S, x ∉ st.sorted) ∧
  st.sorted.Nodup ∧
  (∀ x ∈ st.visited, x ∈ ruleIds)

/-- The `SET_VALUE` targets of a rule's normalised `then` and `else`
actions (the fields the rule writes). -/
def writesOf (deps : DependencyGraph) (rid : String) : List String :=
  match rget deps.rules rid with
  | some rd =>
    (actionsOf rd.rule.thenA ++ actionsOf rd.rule.elseA).filterMap
      (fun a => if a.type = "SET_VALUE" then some a.target else none)
  | none => []

/-- The reads recorded for a rule in the dependency graph. -/
def readsOfD (deps : DependencyGraph) (rid : String) : List String :=
  match rget deps.rules rid with
  | some rd => rd.reads
  | none => []

/-- The write/read edge the sort actually orders by: candidate `w` writes
a field that is the last path segment of a non-context read of candidate
`r`. -/
def EdgeTo (ruleIds : List String) (deps : DependencyGraph) (w r : String) :
    Prop :=
  w ≠ r ∧ w ∈ ruleIds ∧ r ∈ ruleIds ∧
    ∃ p ∈ readsOfD deps r, skipContextPath p = false ∧
      lastSegment p ∈ writesOf deps w

/-- The write/read relation exactly as the claim states it: candidate `w`
carries a `SET_VALUE` action targeting a field `f`, and candidate `r`'s
reads include `f` itself (context-prefixed reads ignored). -/
def ClaimEdge (ruleIds : List String) (deps : DependencyGraph) (w r : String) :
    Prop :=
  w ≠ r ∧ w ∈ ruleIds ∧ r ∈ ruleIds ∧
    ∃ f ∈ writesOf deps w, f ∈ readsOfD deps r ∧ skipContextPath f = false

/-- `a` occurs strictly before `b` in the list. -/
def Before (l : List String) (a b : String) : Prop :=
  ∃ l1 l2 l3, l = l1 ++ a :: l2 ++ b :: l3

/-- Writers precede their readers throughout the list. -/
def TopoOrd (ruleIds : List String) (deps : DependencyGraph)
    (l : List String) : Prop :=
  ∀ w r, EdgeTo ruleIds deps w r → r ∈ l → Before l w r

/-- A plain text field with no default, no rules and no options. -/
def mkField (id ty : String) : FieldBase :=
  ⟨id, ty, .undefined, false, .undefined, [], none⟩

/-- A schema declaring section `s1` with a direct field `g` and a
subsection `sub1` holding field `f1` (no rules anywhere). -/
def subFieldSchema : FormSchema :=
  ⟨[], [⟨"s1", .undefined, false, [], [mkField "g" "text"],
        [⟨"sub1", .undefined, false, [mkField "f1" "text"]⟩]⟩], []⟩

/-- A schema whose only rule input is a field visibility rule reading the
context path `globals.x`. -/
def globalsVisSchema : FormSchema :=
  ⟨[], [⟨"s1", .undefined, false, [],
        [⟨"f", "text", .undefined, false, .vobj [("var", .vstr "globals.x")], [],
          none⟩], []⟩], []⟩

/-- A schema declaring a checkbox-group field with no default value. -/
def checkboxGroupSchema : FormSchema :=
  ⟨[], [⟨"s1", .undefined, false, [], [mkField "f" "checkbox-group"], []⟩], []⟩

/-- A snapshot with one value and no UI entries at all. -/
def ghostSnap : FormSnapshot :=
  ⟨⟨[], [], []⟩, [], [("a", .vstr "x")], ⟨[], []⟩, [], none⟩

/-- A snapshot where field `ssn` holds a typed value but is hidden, while
`name` is visible. -/
def hiddenSnap : FormSnapshot :=
  ⟨⟨[], [], []⟩, [], [("ssn", .vstr "123"), ("name", .vstr "bo")],
   ⟨[], [("ssn", ⟨false, false, .undefined, .undefined⟩),
         ("name", ⟨true, false, .undefined, .undefined⟩)]⟩, [], none⟩

/-- A two-value snapshot for the payload round trip. -/
def roundSnap : FormSnapshot :=
  ⟨⟨[], [], []⟩, [], [("a", .vnum 1), ("b", .vstr "x")], ⟨[], []⟩, [], none⟩

/-- A snapshot whose dependency graph maps field `f` to a rule that sets
an error on `f` unconditionally. -/
def frameSnap : FormSnapshot :=
  ⟨⟨[], [], []⟩, [], [("f", .vnum 1), ("other", .vnum 2)],
   ⟨[("sec1", ⟨true, false⟩)],
    [("f", ⟨true, false, .undefined, .undefined⟩),
     ("other", ⟨true, false, .undefined, .undefined⟩)]⟩,
   [],
   some ⟨[("f", ["r1"])],
         [("r1", ⟨⟨"r1", .vbool true, .many [⟨"SET_ERROR", "f", .vstr "boom"⟩],
                   .missing⟩, []⟩)]⟩⟩

/-- A dependency graph where rule `r1` writes field `x` and rule `r2`
reads it. -/
def topoDeps : DependencyGraph :=
  ⟨[], [("r2", ⟨⟨"r2", .vobj [("var", .vstr "x")], .missing, .missing⟩, ["x"]⟩),
        ("r1", ⟨⟨"r1", .vbool true, .many [⟨"SET_VALUE", "x", .vnum 1⟩],
                 .missing⟩, []⟩)]⟩

/-- A rank function placing the writer `r1` below the reader `r2`. -/
def topoRank : String → Nat :=
  fun s => if s = "r1" then 0 else 1

/-- A dependency graph where rule `r1` writes the dotted field id `a.b`
and rule `r2` reads the very same path `a.b`. -/
def dotDeps : DependencyGraph :=
  ⟨[], [("r2", ⟨⟨"r2", .vobj [("var", .vstr "a.b")], .missing, .missing⟩,
               ["a.b"]⟩),
        ("r1", ⟨⟨"r1", .vbool true, .many [⟨"SET_VALUE", "a.b", .vnum 1⟩],
                 .missing⟩, []⟩)]⟩

/-- A rank function placing the dotted writer `r1` below the reader
`r2`. -/
def dotRank : String → Nat :=
  fun s => if s = "r1" then 0 else 1

theorem rget_rset_self {α : Type} (m : List (String × α)) (k : String) (v : α) :
    rget (rset m k v) k = some v := by
  induction m with
  | nil => simp [rget, rset]
  | cons h2 t ih =>
    obtain ⟨k2, v2⟩ := h2
    by_cases hk : k2 = k <;> simp [rget, rset, hk, ih]

theorem rget_rset_ne {α : Type} (m : List (String × α)) (k k2 : String) (v : α)
    (h : k2 ≠ k) : rget (rset m k v) k2 = rget m k2 := by
  induction m with
  | nil => simp [rget, rset, Ne.symm h]
  | cons h3 t ih =>
    obtain ⟨k3, v3⟩ := h3
    by_cases hk : k3 = k
    · subst hk
      simp [rget, rset, Ne.symm h]
    · simp only [rset, if_neg hk]
      by_cases hk2 : k3 = k2 <;> simp [rget, hk2, ih]

theorem rget_rdel_ne {α : Type} (m : List (String × α)) (k k2 : String)
    (h : k2 ≠ k) : rget (rdel m k) k2 = rget m k2 := by
  induction m with
  | nil => simp [rdel]
  | cons h3 t ih =>
    obtain ⟨k3, v3⟩ := h3
    by_cases hk : k3 = k
    · subst hk
      simp [rget, rdel, Ne.symm h]
    · by_cases hk2 : k3 = k2 <;> simp [rget, rdel, hk, hk2, ih, h]

theorem rdel_of_rget_none {α : Type} (m : List (String × α)) (k : String)
    (h : rget m k = none) : rdel m k = m := by
  induction m with
  | nil => simp [rdel]
  | cons h3 t ih =>
    obtain ⟨k3, v3⟩ := h3
    by_cases hk : k3 = k
    · simp [rget, hk] at h
    · simp only [rget, if_neg hk] at h
      simp [rdel, hk, ih h]

theorem rset_append_of_none {α : Type} (m : List (String × α)) (k : String)
    (v : α) (h : rget m k = none) : rset m k v = m ++ [(k, v)] := by
  induction m with
  | nil => simp [rset]
  | cons h3 t ih =>
    obtain ⟨k3, v3⟩ := h3
    by_cases hk : k3 = k
    · simp [rget, hk] at h
    · simp only [rget, if_neg hk] at h
      simp [rset, hk, ih h]

theorem rget_append {α : Type} (a b : List (String × α)) (k : String) :
    rget (a ++ b) k = ((rget a k).rec (rget b k) fun v => some v : Option α) := by
  induction a with
  | nil => simp [rget]
  | cons h3 t ih =>
    obtain ⟨k3, v3⟩ := h3
    by_cases hk : k3 = k <;> simp [rget, hk, ih]

theorem mem_rkeys_of_rget {α : Type} (m : List (String × α)) (k : String)
    (v : α) (h : rget m k = some v) : k ∈ rkeys m := by
  induction m with
  | nil => simp [rget] at h
  | cons h3 t ih =>
    obtain ⟨k3, v3⟩ := h3
    by_cases hk : k3 = k
    · simp [rkeys, hk]
    · simp only [rget, if_neg hk] at h
      simp [rkeys] at ih ⊢
      exact Or.inr (ih h)

theorem rget_none_of_not_mem_rkeys {α : Type} (m : List (String × α))
    (k : String) (h : k ∉ rkeys m) : rget m k = none := by
  induction m with
  | nil => simp [rget]
  | cons h3 t ih =>
    obtain ⟨k3, v3⟩ := h3
    have h1 : k3 ≠ k := by
      intro hh
      exact h (by simp [rkeys, hh])
    have h2 : k ∉ rkeys t := by
      intro hh
      exact h (by simp only [rkeys, List.map_cons]; exact List.mem_cons_of_mem _ hh)
    simp [rget, h1, ih h2]

/-- A record with duplicate-free keys is reconstructed by reading each of
its keys back. -/
theorem map_rget_reconstruct {α : Type} (m : List (String × α)) (d : α)
    (h : (rkeys m).Nodup) :
    (rkeys m).map (fun k => (k, (rget m k).getD d)) = m := by
  induction m with
  | nil => simp [rkeys]
  | cons h3 t ih =>
    obtain ⟨k3, v3⟩ := h3
    simp only [rkeys, List.map_cons, List.nodup_cons] at h ⊢
    rw [List.cons.injEq]
    refine ⟨by simp [rget], ?_⟩
    have hcongr : ∀ k ∈ rkeys t, rget ((k3, v3) :: t) k = rget t k := by
      intro k hk
      have hne : k3 ≠ k := fun hh => h.1 (hh ▸ hk)
      simp [rget, hne]
    calc (rkeys t).map (fun k => (k, (rget ((k3, v3) :: t) k).getD d))
        = (rkeys t).map (fun k => (k, (rget t k).getD d)) := by
          apply List.map_congr_left
          intro k hk
          rw [hcongr k hk]
      _ = t := ih h.2

/-- Copy loop of `buildPayload` with no stripping: folding `rset` over a
key list none of whose keys is already present appends the corresponding
pairs. -/
theorem copy_fold_append {α : Type} (m : List (String × α)) (d : α) :
    ∀ (ks : List String) (acc : List (String × α)), ks.Nodup →
    (∀ k ∈ ks, rget acc k = none) →
    ks.foldl (fun p k => rset p k ((rget m k).getD d)) acc =
      acc ++ ks.map (fun k => (k, (rget m k).getD d)) := by
  intro ks
  induction ks with
  | nil => simp
  | cons k t ih =>
    intro acc hnd hnone
    simp only [List.foldl_cons, List.map_cons]
    rw [rset_append_of_none acc k _ (hnone k (by simp))]
    rw [ih _ (by simpa using hnd.of_cons) ?_]
    · simp
    · intro k2 hk2
      rw [rget_append]
      have hne : k2 ≠ k := fun hh => (List.nodup_cons.mp hnd).1 (hh ▸ hk2)
      rw [hnone k2 (by simp [hk2])]
      simp [rget, Ne.symm hne]

/-- C6: with both strip flags false, the payload loop copies every key of
`values` in order, reproducing the map exactly. -/
theorem buildPayload_id_aux (s : FormSnapshot)
    (h : (rkeys s.values).Nodup) :
    buildPayload s false false = s.values := by
  unfold buildPayload
  simp only [Bool.false_and, Bool.false_eq_true, if_false]
  rw [copy_fold_append s.values Value.undefined (rkeys s.values) [] h
    (by intro k _; simp [rget])]
  simpa using map_rget_reconstruct s.values Value.undefined h

/-- Read-back of the payload loop: for a duplicate-free key list, a key is
present in the result exactly when it survives the strip condition, and it
then carries the copied value. -/
theorem payload_fold_rget {α : Type} (cond : String → Bool) (val : String → α) :
    ∀ (ks : List String) (acc : List (String × α)) (k : String), ks.Nodup →
    rget (ks.foldl (fun p fid => if cond fid then p else rset p fid (val fid)) acc) k =
      if k ∈ ks ∧ cond k = false then some (val k) else rget acc k := by
  intro ks
  induction ks with
  | nil => simp
  | cons f t ih =>
    intro acc k hnd
    simp only [List.foldl_cons]
    by_cases hc : cond f = true
    · rw [if_pos hc, ih acc k hnd.of_cons]
      by_cases hf : f = k
      · subst hf
        simp [hc, (List.nodup_cons.mp hnd).1]
      · simp [List.mem_cons, Ne.symm hf]
    · have hc2 : cond f = false := by simpa using hc
      rw [if_neg hc, ih _ k hnd.of_cons]
      by_cases hf : f = k
      · subst hf
        simp [(List.nodup_cons.mp hnd).1, hc2, rget_rset_self]
      · simp only [rget_rset_ne _ _ _ _ (Ne.symm hf), List.mem_cons]
        simp [Ne.symm hf]

/-- Frame property of one action application: a key distinct from the
action's target is unchanged in all four snapshot maps, and the untargeted
maps are untouched entirely. -/
theorem applyAction_frame (s : FormSnapshot) (a : EngineAction) (k : String)
    (h : k ≠ a.target) :
    rget (applyAction s a).values k = rget s.values k ∧
    rget (applyAction s a).ui.sections k = rget s.ui.sections k ∧
    rget (applyAction s a).ui.fields k = rget s.ui.fields k ∧
    rget (applyAction s a).errors k = rget s.errors k := by
  unfold applyAction
  split_ifs <;>
    first
      | exact ⟨rfl, rfl, rfl, rfl⟩
      | (try simp only [applyShowSection, applyHideSection, applyShowField,
          applyHideField, applySetDisabled, applySetOptions, applySetError,
          applyClearError]
         (repeat' split) <;> refine ⟨?_, ?_, ?_, ?_⟩ <;>
           simp [rget_rset_ne _ _ _ _ h, rget_rdel_ne _ _ _ h])

/-- Frame property of `applyActions`: a key that is no action's target is
unchanged in all four snapshot maps. -/
theorem applyActions_frame (acts : List EngineAction) (s : FormSnapshot)
    (k : String) (h : k ∉ acts.map (fun a => a.target)) :
    rget (applyActions acts s).values k = rget s.values k ∧
    rget (applyActions acts s).ui.sections k = rget s.ui.sections k ∧
    rget (applyActions acts s).ui.fields k = rget s.ui.fields k ∧
    rget (applyActions acts s).errors k = rget s.errors k := by
  induction acts generalizing s with
  | nil => exact ⟨rfl, rfl, rfl, rfl⟩
  | cons a t ih =>
    simp only [List.map_cons, List.mem_cons, not_or] at h
    have h1 := applyAction_frame s a k h.1
    have h2 := ih (applyAction s a) h.2
    simp only [applyActions, List.foldl_cons] at h2 ⊢
    exact ⟨h2.1.trans h1.1, h2.2.1.trans h1.2.1, h2.2.2.1.trans h1.2.2.1,
      h2.2.2.2.trans h1.2.2.2⟩

theorem isUndef_iff (v : Value) : isUndefined v = true ↔ v = .undefined := by
  cases v <;> simp [isUndefined]

theorem deepGet_falsy (obj : Value) (path : String) (h : truthy obj = false) :
    deepGet obj path = .undefined := by
  simp [deepGet, h]

/-- The evaluator's truthiness guard around a `deepGet` lookup is
equivalent to testing the lookup result alone: a falsy context object
yields undefined from `deepGet` anyway. -/
theorem guard_last (x : Value) (q : String) :
    (if truthy x = true ∧ isUndefined (deepGet x q) = false then deepGet x q
     else .undefined) = deepGet x q := by
  by_cases ht : truthy x = true
  · by_cases hu : isUndefined (deepGet x q) = false
    · simp [ht, hu]
    · have h0 : deepGet x q = .undefined := (isUndef_iff _).mp (by simpa using hu)
      simp [h0]
  · have ht2 : truthy x = false := eq_false_of_ne_true ht
    simp [ht2, deepGet_falsy _ _ ht2]

/-- One fallback step of the unprefixed resolution matches the spec's
formulation of the same step. -/
theorem guard_step (x : Value) (q : String) (a b : Value) (hab : a = b) :
    (if truthy x = true ∧ isUndefined (deepGet x q) = false then deepGet x q
     else a) =
    (if isUndefined (deepGet x q) = false then deepGet x q else b) := by
  by_cases ht : truthy x = true
  · by_cases hu : isUndefined (deepGet x q) = false <;> simp [ht, hu, hab]
  · have ht2 : truthy x = false := eq_false_of_ne_true ht
    have h0 : deepGet x q = .undefined := deepGet_falsy _ _ ht2
    simp [ht2, h0, isUndefined, hab]

/-- C9: a variable-reference expression evaluates exactly as the spec
describes the prefix routing — `globals.`-prefixed paths read only
`context.globals` (stripped, undefined when absent), `params.`-prefixed
paths read only `context.params`, and unprefixed paths read
`context.data` first with fallback to `context.globals` and then
`context.params`, undefined when all three miss. -/
theorem evaluate_var_resolution (p : String) (ctx : EvalContext) :
    evaluate (.vobj [("var", .vstr p)]) ctx = specVarResolve p ctx := by
  have h1 : evaluate (.vobj [("var", .vstr p)]) ctx = evalVar p ctx := by
    simp [evaluate, rget]
  rw [h1]
  unfold evalVar specVarResolve
  by_cases hg : jsStartsWith p "globals." = true
  · simp only [hg, if_true]
    exact guard_last ctx.globals _
  · simp only [hg, Bool.false_eq_true, if_false]
    by_cases hp : jsStartsWith p "params." = true
    · simp only [hp, if_true]
      exact guard_last ctx.params _
    · simp only [hp, Bool.false_eq_true, if_false]
      exact guard_step ctx.data p _ _
        (guard_step ctx.globals p _ _ (guard_last ctx.params p))

/-- C1 (code bug exhibit): on a schema declaring subsection `sub1` with
field `f1`, `createSnapshot` yields UI entries for the section and its
direct field, but no `ui.sections` entry under the namespaced id
`subsection_sub1`, no `ui.fields` entry for `f1`, and no `values` key for
`f1` — `seedUI` and the engine-side `getAllFieldsFromSection` never look
inside subsections, although `buildDependencyGraph` synthesizes actions
targeting `subsection_<id>` and the renderer reads
`ui.sections['subsection_' + id]`. -/
theorem createSnapshot_subsection_missing :
    (subFieldSchema.sections.map fun sec => sec.subsections.map fun sub => sub.id)
      = [["sub1"]] ∧
    (subFieldSchema.sections.map fun sec =>
        sec.subsections.map fun sub => sub.fields.map fun f => f.id)
      = [[["f1"]]] ∧
    rget (createSnapshot subFieldSchema none).ui.sections "s1" = some ⟨true, false⟩ ∧
    rget (createSnapshot subFieldSchema none).ui.fields "g" =
      some ⟨true, false, .undefined, .undefined⟩ ∧
    rget (createSnapshot subFieldSchema none).values "g" = some (.vstr "") ∧
    rget (createSnapshot subFieldSchema none).ui.sections "subsection_sub1" = none ∧
    rget (createSnapshot subFieldSchema none).ui.fields "f1" = none ∧
    rget (createSnapshot subFieldSchema none).values "f1" = none :=
  ⟨rfl, rfl, rfl, rfl, rfl, rfl, rfl, rfl⟩

/-- C3 (code bug exhibit): the synthesized field visibility rule for `f`
reads only the context path `globals.x`, which the skip guard recognises,
yet `buildDependencyGraph` indexes it — `byField` gains the entry
`x ↦ [field_f_visibility]` because the field-visibility indexing site
omits the `globals.`/`params.` skip applied at every other site. -/
theorem buildDependencyGraph_globals_indexed :
    readsOfD (buildDependencyGraph globalsVisSchema) "field_f_visibility"
      = ["globals.x"] ∧
    skipContextPath "globals.x" = true ∧
    rget (buildDependencyGraph globalsVisSchema).byField "x"
      = some ["field_f_visibility"] :=
  ⟨rfl, rfl, rfl⟩

/-- C4 (code bug exhibit): a checkbox-group field with no declared default
is initialised to the empty string, not the empty array — the
`initialValues` switch lists `multi-select` but not `checkbox-group`,
although the validation layer types checkbox-group values as arrays. -/
theorem initialValues_checkboxGroup_default :
    rget (initialValues checkboxGroupSchema none) "f" = some (.vstr "") ∧
    some (Value.vstr "") ≠ some (Value.varr []) := by
  refine ⟨rfl, ?_⟩
  intro h
  injection h with h2
  injection h2

/-- C2 (counterexample): a `SET_VALUE` action whose target is no section
and no field entry of the snapshot is not a no-op — it writes the values
map. -/
theorem applyActions_missing_target_cex :
    rget ghostSnap.ui.sections "ghost" = none ∧
    rget ghostSnap.ui.fields "ghost" = none ∧
    rget ghostSnap.values "ghost" = none ∧
    rget (applyActions [⟨"SET_VALUE", "ghost", .vnum 1⟩] ghostSnap).values "ghost"
      = some (.vnum 1) ∧
    (applyActions [⟨"SET_VALUE", "ghost", .vnum 1⟩] ghostSnap).values ≠
      ghostSnap.values := by
  refine ⟨rfl, rfl, rfl, rfl, ?_⟩
  intro heq
  have h1 : rget (applyActions [⟨"SET_VALUE", "ghost", .vnum 1⟩]
      ghostSnap).values "ghost" = some (.vnum 1) := rfl
  rw [heq] at h1
  exact Option.noConfusion h1

/-- C2 (amended): for an action whose target matches no section and no
field UI entry, every type other than `SET_VALUE`, `SET_ERROR` and
`CLEAR_ERROR` is a complete no-op; `SET_VALUE` still writes the values
map (leaving ui and errors intact), `SET_ERROR` still writes the errors
map (leaving ui and values intact), and `CLEAR_ERROR` deletes the errors
entry (a complete no-op when that entry is absent). -/
theorem applyActions_missing_target (s : FormSnapshot) (a : EngineAction)
    (hs : rget s.ui.sections a.target = none)
    (hf : rget s.ui.fields a.target = none) :
    (a.type ≠ "SET_VALUE" → a.type ≠ "SET_ERROR" → a.type ≠ "CLEAR_ERROR" →
      applyActions [a] s = s) ∧
    (a.type = "SET_VALUE" →
      (applyActions [a] s).values = rset s.values a.target a.value ∧
      (applyActions [a] s).ui = s.ui ∧
      (applyActions [a] s).errors = s.errors) ∧
    (a.type = "SET_ERROR" →
      (applyActions [a] s).errors = rset s.errors a.target a.value ∧
      (applyActions [a] s).ui = s.ui ∧
      (applyActions [a] s).values = s.values) ∧
    (a.type = "CLEAR_ERROR" →
      (applyActions [a] s).errors = rdel s.errors a.target ∧
      (applyActions [a] s).ui = s.ui ∧
      (applyActions [a] s).values = s.values ∧
      (rget s.errors a.target = none → applyActions [a] s = s)) := by
  have hbase : applyActions [a] s = applyAction s a := rfl
  refine ⟨?_, ?_, ?_, ?_⟩
  · intro h1 h2 h3
    rw [hbase]
    unfold applyAction
    split_ifs <;>
      simp_all [applyShowSection, applyHideSection, applyShowField,
        applyHideField, applySetDisabled, applySetOptions]
  · intro h1
    rw [hbase]
    unfold applyAction
    simp [h1]
  · intro h1
    rw [hbase]
    unfold applyAction
    simp [h1, applySetError, hf]
  · intro h1
    rw [hbase]
    unfold applyAction
    simp only [h1]
    simp [applyClearError, hf]
    intro h2
    have hd : rdel s.errors a.target = s.errors := rdel_of_rget_none _ _ h2
    simp [hd]

/-- Witness for the amended missing-target behaviour at a concrete
snapshot and action. -/
theorem applyActions_missing_target_witness :
    rget ghostSnap.ui.sections "nobody" = none ∧
    rget ghostSnap.ui.fields "nobody" = none ∧
    applyActions [⟨"HIDE_FIELD", "nobody", .undefined⟩] ghostSnap = ghostSnap :=
  ⟨rfl, rfl,
    (applyActions_missing_target ghostSnap ⟨"HIDE_FIELD", "nobody", .undefined⟩
      rfl rfl).1
      (by decide) (by decide) (by decide)⟩

/-- C6: with both strip flags false, `buildPayload` returns the values
map exactly — same keys in the same order, each with the same value. -/
theorem buildPayload_roundTrip (s : FormSnapshot)
    (h : (rkeys s.values).Nodup) :
    buildPayload s false false = s.values :=
  buildPayload_id_aux s h

/-- Witness for the payload round trip at a concrete snapshot. -/
theorem buildPayload_roundTrip_witness :
    (rkeys roundSnap.values).Nodup ∧
    buildPayload roundSnap false false = roundSnap.values :=
  ⟨by decide, buildPayload_roundTrip roundSnap (by decide)⟩

/-- C5: `buildPayload(snapshot, true, false)` omits every field whose UI
entry is hidden and keeps every field whose UI entry is visible with its
value from `snapshot.values`; the values map itself still holds the
hidden field's value (`buildPayload` is a pure copy and never touches the
snapshot). -/
theorem buildPayload_stripHidden (s : FormSnapshot) (f : String) (v : Value)
    (u : FieldUIState) (hnd : (rkeys s.values).Nodup)
    (hv : rget s.values f = some v) (hu : rget s.ui.fields f = some u) :
    (u.visible = false → rget (buildPayload s true false) f = none) ∧
    (u.visible = true → rget (buildPayload s true false) f = some v) ∧
    rget s.values f = some v := by
  have hmem : f ∈ rkeys s.values := mem_rkeys_of_rget _ _ _ hv
  have hfold :
      rget (buildPayload s true false) f =
        if f ∈ rkeys s.values ∧
            (match rget s.ui.fields f with
             | some u2 => !u2.visible
             | none => false) = false
        then some ((rget s.values f).getD .undefined)
        else rget ([] : List (String × Value)) f :=
    payload_fold_rget
      (fun fid =>
        match rget s.ui.fields fid with
        | some u2 => !u2.visible
        | none => false)
      (fun fid => (rget s.values fid).getD .undefined)
      (rkeys s.values) [] f hnd
  refine ⟨?_, ?_, hv⟩ <;> intro hvis
  · rw [hfold, hu]
    simp [hvis, rget]
  · rw [hfold, hu]
    simp [hvis, hmem, hv]

/-- Witness for hidden-field stripping at a concrete snapshot: hidden
`ssn` is omitted, visible `name` is kept, and the values map retains the
`ssn` value. -/
theorem buildPayload_stripHidden_witness :
    rget hiddenSnap.ui.fields "ssn" = some ⟨false, false, .undefined, .undefined⟩ ∧
    rget (buildPayload hiddenSnap true false) "ssn" = none ∧
    rget hiddenSnap.values "ssn" = some (.vstr "123") ∧
    rget (buildPayload hiddenSnap true false) "name" = some (.vstr "bo") := by
  refine ⟨rfl, ?_, rfl, ?_⟩
  · exact (buildPayload_stripHidden hiddenSnap "ssn" (.vstr "123")
      ⟨false, false, .undefined, .undefined⟩ (by decide) rfl rfl).1 rfl
  · exact (buildPayload_stripHidden hiddenSnap "name" (.vstr "bo")
      ⟨true, false, .undefined, .undefined⟩ (by decide) rfl rfl).2.1 rfl

/-- C8: `updateSnapshot` changes nothing but the edited value and the
targets of the actions produced by the rules indexed under the edited
field — every other key of `values`, `ui.sections`, `ui.fields` and
`errors` reads back unchanged. -/
theorem updateSnapshot_frame (s : FormSnapshot) (fid : String) (v : Value)
    (k : String)
    (hk : k ∉ (updateActions s fid v).map (fun a => a.target)) :
    (k ≠ fid → rget (updateSnapshot s fid v).values k = rget s.values k) ∧
    rget (updateSnapshot s fid v).ui.sections k = rget s.ui.sections k ∧
    rget (updateSnapshot s fid v).ui.fields k = rget s.ui.fields k ∧
    rget (updateSnapshot s fid v).errors k = rget s.errors k := by
  unfold updateSnapshot
  cases hdeps : s.deps with
  | none =>
    exact ⟨fun hne => rget_rset_ne _ _ _ _ hne, rfl, rfl, rfl⟩
  | some deps =>
    have hacts : updateActions s fid v =
        evaluateRules (getRulesForField fid deps)
          ⟨s.schema, s.globals, rset s.values fid v, s.ui, s.errors, some deps⟩
          none := by
      unfold updateActions
      rw [hdeps]
    rw [hacts] at hk
    have h := applyActions_frame
      (evaluateRules (getRulesForField fid deps)
        ⟨s.schema, s.globals, rset s.values fid v, s.ui, s.errors, some deps⟩ none)
      ⟨s.schema, s.globals, rset s.values fid v, s.ui, s.errors, some deps⟩ k hk
    refine ⟨fun hne => ?_, ?_, ?_, ?_⟩
    · rw [h.1]
      exact rget_rset_ne _ _ _ _ hne
    · exact h.2.1
    · exact h.2.2.1
    · exact h.2.2.2

theorem countP_mono_of_imp {α : Type} (l : List α) (p q : α → Bool)
    (h : ∀ x ∈ l, p x = true → q x = true) : l.countP p ≤ l.countP q := by
  induction l with
  | nil => simp
  | cons a t ih =>
    have ht := ih (fun x hx => h x (by simp [hx]))
    by_cases hp : p a = true
    · have hq := h a (by simp) hp
      simp [List.countP_cons, hp, hq]
      omega
    · simp only [List.countP_cons, hp, if_false, Bool.false_eq_true]
      by_cases hq : q a = true <;> simp [hq] <;> omega

theorem unvis_mono (ruleIds v1 v2 : List String)
    (h : ∀ x ∈ v1, x ∈ v2) :
    unvisCount ruleIds v2 ≤ unvisCount ruleIds v1 := by
  apply countP_mono_of_imp
  intro x _ hx
  simp only [decide_eq_true_eq] at hx ⊢
  intro hmem
  exact hx (h x hmem)

theorem unvis_push_lt (ruleIds vis : List String) (r : String)
    (hr : r ∈ ruleIds) (hnv : r ∉ vis) :
    unvisCount ruleIds (r :: vis) < unvisCount ruleIds vis := by
  unfold unvisCount
  induction ruleIds with
  | nil => simp at hr
  | cons a t ih =>
    simp only [List.countP_cons, decide_eq_true_eq]
    have hmono : List.countP (fun x => decide (x ∉ r :: vis)) t ≤
        List.countP (fun x => decide (x ∉ vis)) t := by
      have := unvis_mono t vis (r :: vis) (fun x hx => by simp [hx])
      unfold unvisCount at this
      exact this
    rcases List.mem_cons.mp hr with rfl | hrt
    · have e1 : (if r ∉ r :: vis then 1 else 0) = 0 := if_neg (by simp)
      have e2 : (if r ∉ vis then 1 else 0) = 1 := if_pos hnv
      rw [e1, e2]
      omega
    · have := ih hrt
      by_cases hmem : a ∉ vis
      · have hmem2 : a ∉ r :: vis → a ∉ vis := fun h hh => h (by simp [hh])
        by_cases hmem3 : a ∉ r :: vis
        · rw [if_pos hmem3, if_pos hmem]
          omega
        · rw [if_neg hmem3, if_pos hmem]
          omega
      · have hmem3 : ¬(a ∉ r :: vis) := by
          simp only [not_not] at hmem ⊢
          simp [hmem]
        rw [if_neg hmem3, if_neg hmem]
        omega

theorem unvis_le_length (ruleIds vis : List String) :
    unvisCount ruleIds vis ≤ ruleIds.length := by
  unfold unvisCount
  exact List.countP_le_length _

theorem unvis_zero_visited (ruleIds vis : List String) (r : String)
    (hz : unvisCount ruleIds vis = 0) (hr : r ∈ ruleIds) : r ∈ vis := by
  unfold unvisCount at hz
  rw [List.countP_eq_zero] at hz
  have := hz r hr
  simpa using this

/-- Pushing an unvisited candidate onto the visited set extends the stack
invariant by that id. -/
theorem SortInv_push (ruleIds S : List String) (st : SortState) (r : String)
    (hr : r ∈ ruleIds) (hnv : r ∉ st.visited)
    (hinv : SortInv ruleIds S st) :
    SortInv ruleIds (r :: S) ⟨r :: st.visited, st.sorted⟩ := by
  obtain ⟨hiff, hdisj, hnd, hsub⟩ := hinv
  have hrs : r ∉ st.sorted := fun hmem => hnv ((hiff r).mpr (Or.inl hmem))
  refine ⟨?_, ?_, hnd, ?_⟩
  · intro x
    simp only [List.mem_cons]
    constructor
    · rintro (rfl | hx)
      · exact Or.inr (Or.inl rfl)
      · rcases (hiff x).mp hx with h | h
        · exact Or.inl h
        · exact Or.inr (Or.inr h)
    · rintro (hx | rfl | hx)
      · exact Or.inr ((hiff x).mpr (Or.inl hx))
      · exact Or.inl rfl
      · exact Or.inr ((hiff x).mpr (Or.inr hx))
  · intro x hx
    rcases List.mem_cons.mp hx with rfl | hx2
    · exact hrs
    · exact hdisj x hx2
  · intro x hx
    rcases List.mem_cons.mp hx with rfl | hx2
    · exact hr
    · exact hsub x hx2

theorem Before_append (l t : List String) (a b : String)
    (h : Before l a b) : Before (l ++ t) a b := by
  obtain ⟨l1, l2, l3, rfl⟩ := h
  exact ⟨l1, l2, l3 ++ t, by simp⟩

theorem Before_push (l : List String) (a b : String) (h : a ∈ l) :
    Before (l ++ [b]) a b := by
  obtain ⟨l1, l2, rfl⟩ := List.append_of_mem h
  exact ⟨l1, l2, [], by simp⟩

/-- Structural facts about the depth-first sort, by induction on fuel:
every visit only grows the visited set, only appends to the output,
preserves the stack invariant, and guarantees its argument (for `visitF`),
all candidate writers of each processed read (for `goReads`), and all
candidate writers of the list (for `goWriters`) end up visited. -/
theorem dfsBasic (ruleIds : List String) (deps : DependencyGraph)
    (wt : List (String × List String)) :
    ∀ fuel : Nat,
    (∀ r S st, r ∈ ruleIds → r ∉ S → SortInv ruleIds S st →
        unvisCount ruleIds st.visited ≤ fuel →
        (∀ x ∈ st.visited, x ∈ (visitF fuel ruleIds deps wt r st).visited) ∧
        (∃ t, (visitF fuel ruleIds deps wt r st).sorted = st.sorted ++ t) ∧
        SortInv ruleIds S (visitF fuel ruleIds deps wt r st) ∧
        r ∈ (visitF fuel ruleIds deps wt r st).visited) ∧
    (∀ rid S ps st, SortInv ruleIds S st →
        unvisCount ruleIds st.visited ≤ fuel →
        (∀ x ∈ st.visited, x ∈ (goReads fuel ruleIds deps wt rid ps st).visited) ∧
        (∃ t, (goReads fuel ruleIds deps wt rid ps st).sorted = st.sorted ++ t) ∧
        SortInv ruleIds S (goReads fuel ruleIds deps wt rid ps st) ∧
        (∀ p ∈ ps, skipContextPath p = false →
          ∀ w ∈ (rget wt (lastSegment p)).getD [], w ≠ rid → w ∈ ruleIds →
            w ∈ (goReads fuel ruleIds deps wt rid ps st).visited)) ∧
    (∀ rid S ws st, SortInv ruleIds S st →
        unvisCount ruleIds st.visited ≤ fuel →
        (∀ x ∈ st.visited, x ∈ (goWriters fuel ruleIds deps wt rid ws st).visited) ∧
        (∃ t, (goWriters fuel ruleIds deps wt rid ws st).sorted = st.sorted ++ t) ∧
        SortInv ruleIds S (goWriters fuel ruleIds deps wt rid ws st) ∧
        (∀ w ∈ ws, w ≠ rid → w ∈ ruleIds →
          w ∈ (goWriters fuel ruleIds deps wt rid ws st).visited)) := by
  intro fuel
  induction fuel with
  | zero =>
    have hvisit : ∀ r S st, r ∈ ruleIds → r ∉ S → SortInv ruleIds S st →
        unvisCount ruleIds st.visited ≤ 0 →
        (∀ x ∈ st.visited, x ∈ (visitF 0 ruleIds deps wt r st).visited) ∧
        (∃ t, (visitF 0 ruleIds deps wt r st).sorted = st.sorted ++ t) ∧
        SortInv ruleIds S (visitF 0 ruleIds deps wt r st) ∧
        r ∈ (visitF 0 ruleIds deps wt r st).visited := by
      intro r S st hr _ hinv hfu
      have hz : unvisCount ruleIds st.visited = 0 := Nat.le_zero.mp hfu
      have h0 : visitF 0 ruleIds deps wt r st = st := by simp [visitF]
      rw [h0]
      exact ⟨fun x hx => hx, ⟨[], by simp⟩, hinv,
        unvis_zero_visited ruleIds st.visited r hz hr⟩
    have hwriters : ∀ rid S ws st, SortInv ruleIds S st →
        unvisCount ruleIds st.visited ≤ 0 →
        (∀ x ∈ st.visited, x ∈ (goWriters 0 ruleIds deps wt rid ws st).visited) ∧
        (∃ t, (goWriters 0 ruleIds deps wt rid ws st).sorted = st.sorted ++ t) ∧
        SortInv ruleIds S (goWriters 0 ruleIds deps wt rid ws st) ∧
        (∀ w ∈ ws, w ≠ rid → w ∈ ruleIds →
          w ∈ (goWriters 0 ruleIds deps wt rid ws st).visited) := by
      intro rid S ws st
      induction ws generalizing st with
      | nil =>
        intro hinv hfu
        have h0 : goWriters 0 ruleIds deps wt rid [] st = st := by
          simp [goWriters]
        rw [h0]
        exact ⟨fun x hx => hx, ⟨[], by simp⟩, hinv, by simp⟩
      | cons w ws2 ih =>
        intro hinv hfu
        have hz : unvisCount ruleIds st.visited = 0 := Nat.le_zero.mp hfu
        by_cases hguard : w ≠ rid ∧ w ∈ ruleIds ∧ w ∉ st.visited
        · exact absurd (unvis_zero_visited ruleIds st.visited w hz hguard.2.1)
            hguard.2.2
        · have hstep : goWriters 0 ruleIds deps wt rid (w :: ws2) st =
              goWriters 0 ruleIds deps wt rid ws2 st := by
            simp only [goWriters, if_neg hguard]
          obtain ⟨hm, he, hi, hw⟩ := ih st hinv hfu
          rw [hstep]
          refine ⟨hm, he, hi, ?_⟩
          intro w2 hw2 hne hmem
          rcases List.mem_cons.mp hw2 with rfl | hw3
          · exact hm w2 (unvis_zero_visited ruleIds st.visited w2 hz hmem)
          · exact hw w2 hw3 hne hmem
    refine ⟨hvisit, ?_, hwriters⟩
    intro rid S ps st
    induction ps generalizing st with
    | nil =>
      intro hinv hfu
      have h0 : goReads 0 ruleIds deps wt rid [] st = st := by simp [goReads]
      rw [h0]
      exact ⟨fun x hx => hx, ⟨[], by simp⟩, hinv, by simp⟩
    | cons p ps2 ih =>
      intro hinv hfu
      by_cases hskip : skipContextPath p = true
      · have hstep : goReads 0 ruleIds deps wt rid (p :: ps2) st =
            goReads 0 ruleIds deps wt rid ps2 st := by
          simp only [goReads, if_pos hskip]
        obtain ⟨hm, he, hi, hp⟩ := ih st hinv hfu
        rw [hstep]
        refine ⟨hm, he, hi, ?_⟩
        intro p2 hp2 hps
        rcases List.mem_cons.mp hp2 with rfl | hp3
        · rw [hskip] at hps
          cases hps
        · exact hp p2 hp3 hps
      · have hskip2 : skipContextPath p = false := eq_false_of_ne_true hskip
        have hstep : goReads 0 ruleIds deps wt rid (p :: ps2) st =
            goReads 0 ruleIds deps wt rid ps2
              (goWriters 0 ruleIds deps wt rid
                ((rget wt (lastSegment p)).getD []) st) := by
          simp only [goReads, hskip2, Bool.false_eq_true, if_false]
        obtain ⟨hm1, he1, hi1, hw1⟩ :=
          hwriters rid S ((rget wt (lastSegment p)).getD []) st hinv hfu
        have hfu2 : unvisCount ruleIds
            (goWriters 0 ruleIds deps wt rid
              ((rget wt (lastSegment p)).getD []) st).visited ≤ 0 :=
          le_trans (unvis_mono ruleIds _ _ hm1) hfu
        obtain ⟨hm2, he2, hi2, hp2⟩ := ih _ hi1 hfu2
        rw [hstep]
        refine ⟨fun x hx => hm2 x (hm1 x hx), ?_, hi2, ?_⟩
        · obtain ⟨t1, ht1⟩ := he1
          obtain ⟨t2, ht2⟩ := he2
          exact ⟨t1 ++ t2, by rw [ht2, ht1, List.append_assoc]⟩
        · intro p2 hp3 hps w hw hne hmem
          rcases List.mem_cons.mp hp3 with rfl | hp4
          · exact hm2 w (hw1 w hw hne hmem)
          · exact hp2 p2 hp4 hps w hw hne hmem
  | succ fuel ihf =>
    obtain ⟨_, ihr, _⟩ := ihf
    have hvisit : ∀ r S st, r ∈ ruleIds → r ∉ S → SortInv ruleIds S st →
        unvisCount ruleIds st.visited ≤ fuel + 1 →
        (∀ x ∈ st.visited, x ∈ (visitF (fuel + 1) ruleIds deps wt r st).visited) ∧
        (∃ t, (visitF (fuel + 1) ruleIds deps wt r st).sorted = st.sorted ++ t) ∧
        SortInv ruleIds S (visitF (fuel + 1) ruleIds deps wt r st) ∧
        r ∈ (visitF (fuel + 1) ruleIds deps wt r st).visited := by
      intro r S st hr hrS hinv hfu
      by_cases hvis : r ∈ st.visited
      · have hstep : visitF (fuel + 1) ruleIds deps wt r st = st := by
          simp only [visitF, if_pos hvis]
        rw [hstep]
        exact ⟨fun x hx => hx, ⟨[], by simp⟩, hinv, hvis⟩
      · have hinv1 : SortInv ruleIds (r :: S) ⟨r :: st.visited, st.sorted⟩ :=
          SortInv_push ruleIds S st r hr hvis hinv
        have hfu1 : unvisCount ruleIds (r :: st.visited) ≤ fuel := by
          have := unvis_push_lt ruleIds st.visited r hr hvis
          omega
        have hmid : ∀ st2 : SortState,
            (∀ x ∈ (r :: st.visited : List String), x ∈ st2.visited) →
            (∃ t, st2.sorted = st.sorted ++ t) →
            SortInv ruleIds (r :: S) st2 →
            (∀ x ∈ st.visited,
              x ∈ (SortState.mk st2.visited (st2.sorted ++ [r])).visited) ∧
            (∃ t, (SortState.mk st2.visited (st2.sorted ++ [r])).sorted =
              st.sorted ++ t) ∧
            SortInv ruleIds S (SortState.mk st2.visited (st2.sorted ++ [r])) ∧
            r ∈ (SortState.mk st2.visited (st2.sorted ++ [r])).visited := by
          intro st2 hm2 he2 hi2
          obtain ⟨hiff2, hdisj2, hnd2, hsub2⟩ := hi2
          refine ⟨fun x hx => hm2 x (by simp [hx]), ?_, ⟨?_, ?_, ?_, hsub2⟩,
            hm2 r (by simp)⟩
          · obtain ⟨t, ht⟩ := he2
            exact ⟨t ++ [r], by simp [ht]⟩
          · intro x
            constructor
            · intro hx
              rcases (hiff2 x).mp hx with h | h
              · exact Or.inl (by simp [h])
              · rcases List.mem_cons.mp h with rfl | h2
                · exact Or.inl (by simp)
                · exact Or.inr h2
            · rintro (hx | hx)
              · rcases List.mem_append.mp hx with h | h
                · exact (hiff2 x).mpr (Or.inl h)
                · have hxr : x = r := by simpa using h
                  subst hxr
                  exact hm2 x (by simp)
              · exact (hiff2 x).mpr (Or.inr (by simp [hx]))
          · intro x hx
            have h1 : x ∉ st2.sorted := hdisj2 x (by simp [hx])
            have h2 : x ≠ r := fun hh => hrS (hh ▸ hx)
            simp [List.mem_append, h1, h2]
          · have hrns : r ∉ st2.sorted := hdisj2 r (by simp)
            simp [List.nodup_append, hnd2, hrns]
        cases hrg : rget deps.rules r with
        | none =>
          have hstep : visitF (fuel + 1) ruleIds deps wt r st =
              ⟨(SortState.mk (r :: st.visited) st.sorted).visited,
               (SortState.mk (r :: st.visited) st.sorted).sorted ++ [r]⟩ := by
            simp only [visitF, if_neg hvis, hrg]
          rw [hstep]
          exact hmid ⟨r :: st.visited, st.sorted⟩ (fun x hx => hx)
            ⟨[], by simp⟩ hinv1
        | some rd =>
          have hstep : visitF (fuel + 1) ruleIds deps wt r st =
              ⟨(goReads fuel ruleIds deps wt r rd.reads
                  ⟨r :: st.visited, st.sorted⟩).visited,
               (goReads fuel ruleIds deps wt r rd.reads
                  ⟨r :: st.visited, st.sorted⟩).sorted ++ [r]⟩ := by
            simp only [visitF, if_neg hvis, hrg]
          rw [hstep]
          obtain ⟨hm2, he2, hi2, _⟩ :=
            ihr r (r :: S) rd.reads ⟨r :: st.visited, st.sorted⟩ hinv1 hfu1
          exact hmid _ hm2 he2 hi2
    have hwriters : ∀ rid S ws st, SortInv ruleIds S st →
        unvisCount ruleIds st.visited ≤ fuel + 1 →
        (∀ x ∈ st.visited, x ∈ (goWriters (fuel + 1) ruleIds deps wt rid ws st).visited) ∧
        (∃ t, (goWriters (fuel + 1) ruleIds deps wt rid ws st).sorted = st.sorted ++ t) ∧
        SortInv ruleIds S (goWriters (fuel + 1) ruleIds deps wt rid ws st) ∧
        (∀ w ∈ ws, w ≠ rid → w ∈ ruleIds →
          w ∈ (goWriters (fuel + 1) ruleIds deps wt rid ws st).visited) := by
      intro rid S ws st
      induction ws generalizing st with
      | nil =>
        intro hinv hfu
        have h0 : goWriters (fuel + 1) ruleIds deps wt rid [] st = st := by
          simp [goWriters]
        rw [h0]
        exact ⟨fun x hx => hx, ⟨[], by simp⟩, hinv, by simp⟩
      | cons w ws2 ih =>
        intro hinv hfu
        by_cases hguard : w ≠ rid ∧ w ∈ ruleIds ∧ w ∉ st.visited
        · have hstep : goWriters (fuel + 1) ruleIds deps wt rid (w :: ws2) st =
              goWriters (fuel + 1) ruleIds deps wt rid ws2
                (visitF (fuel + 1) ruleIds deps wt w st) := by
            simp only [goWriters, if_pos hguard]
          have hwS : w ∉ S := fun hws => hguard.2.2 ((hinv.1 w).mpr (Or.inr hws))
          obtain ⟨hmv, hev, hiv, hwv⟩ :=
            hvisit w S st hguard.2.1 hwS hinv hfu
          have hfu2 : unvisCount ruleIds
              (visitF (fuel + 1) ruleIds deps wt w st).visited ≤ fuel + 1 :=
            le_trans (unvis_mono ruleIds _ _ hmv) hfu
          obtain ⟨hm2, he2, hi2, hw2⟩ := ih _ hiv hfu2
          rw [hstep]
          refine ⟨fun x hx => hm2 x (hmv x hx), ?_, hi2, ?_⟩
          · obtain ⟨t1, ht1⟩ := hev
            obtain ⟨t2, ht2⟩ := he2
            exact ⟨t1 ++ t2, by rw [ht2, ht1, List.append_assoc]⟩
          · intro w2 hw2m hne hmem
            rcases List.mem_cons.mp hw2m with rfl | hw3
            · exact hm2 w2 hwv
            · exact hw2 w2 hw3 hne hmem
        · have hstep : goWriters (fuel + 1) ruleIds deps wt rid (w :: ws2) st =
              goWriters (fuel + 1) ruleIds deps wt rid ws2 st := by
            simp only [goWriters, if_neg hguard]
          obtain ⟨hm, he, hi, hw⟩ := ih st hinv hfu
          rw [hstep]
          refine ⟨hm, he, hi, ?_⟩
          intro w2 hw2 hne hmem
          rcases List.mem_cons.mp hw2 with rfl | hw3
          · by_cases hv : w2 ∈ st.visited
            · exact hm w2 hv
            · exact absurd ⟨hne, hmem, hv⟩ hguard
          · exact hw w2 hw3 hne hmem
    refine ⟨hvisit, ?_, hwriters⟩
    intro rid S ps st
    induction ps generalizing st with
    | nil =>
      intro hinv hfu
      have h0 : goReads (fuel + 1) ruleIds deps wt rid [] st = st := by
        simp [goReads]
      rw [h0]
      exact ⟨fun x hx => hx, ⟨[], by simp⟩, hinv, by simp⟩
    | cons p ps2 ih =>
      intro hinv hfu
      by_cases hskip : skipContextPath p = true
      · have hstep : goReads (fuel + 1) ruleIds deps wt rid (p :: ps2) st =
            goReads (fuel + 1) ruleIds deps wt rid ps2 st := by
          simp only [goReads, if_pos hskip]
        obtain ⟨hm, he, hi, hp⟩ := ih st hinv hfu
        rw [hstep]
        refine ⟨hm, he, hi, ?_⟩
        intro p2 hp2 hps
        rcases List.mem_cons.mp hp2 with rfl | hp3
        · rw [hskip] at hps
          cases hps
        · exact hp p2 hp3 hps
      · have hskip2 : skipContextPath p = false := eq_false_of_ne_true hskip
        have hstep : goReads (fuel + 1) ruleIds deps wt rid (p :: ps2) st =
            goReads (fuel + 1) ruleIds deps wt rid ps2
              (goWriters (fuel + 1) ruleIds deps wt rid
                ((rget wt (lastSegment p)).getD []) st) := by
          simp only [goReads, hskip2, Bool.false_eq_true, if_false]
        obtain ⟨hm1, he1, hi1, hw1⟩ :=
          hwriters rid S ((rget wt (lastSegment p)).getD []) st hinv hfu
        have hfu2 : unvisCount ruleIds
            (goWriters (fuel + 1) ruleIds deps wt rid
              ((rget wt (lastSegment p)).getD []) st).visited ≤ fuel + 1 :=
          le_trans (unvis_mono ruleIds _ _ hm1) hfu
        obtain ⟨hm2, he2, hi2, hp2⟩ := ih _ hi1 hfu2
        rw [hstep]
        refine ⟨fun x hx => hm2 x (hm1 x hx), ?_, hi2, ?_⟩
        · obtain ⟨t1, ht1⟩ := he1
          obtain ⟨t2, ht2⟩ := he2
          exact ⟨t1 ++ t2, by rw [ht2, ht1, List.append_assoc]⟩
        · intro p2 hp3 hps w hw hne hmem
          rcases List.mem_cons.mp hp3 with rfl | hp4
          · exact hm2 w (hw1 w hw hne hmem)
          · exact hp2 p2 hp4 hps w hw hne hmem

theorem rpush_mem {α : Type} (m : List (String × List α)) (k f : String)
    (v x : α) :
    x ∈ (rget (rpush m k v) f).getD [] ↔
      x ∈ (rget m f).getD [] ∨ (f = k ∧ x = v) := by
  unfold rpush
  by_cases hk : f = k
  · subst hk
    rw [rget_rset_self]
    simp
  · rw [rget_rset_ne _ _ _ _ hk]
    simp [hk]

theorem wtActions_mem (acts : List EngineAction) (rid : String)
    (wt0 : List (String × List String)) (f w : String) :
    w ∈ (rget (acts.foldl
        (fun wt2 a => if a.type = "SET_VALUE" then rpush wt2 a.target rid else wt2)
        wt0) f).getD [] ↔
      w ∈ (rget wt0 f).getD [] ∨
        (w = rid ∧ f ∈ acts.filterMap
          (fun a => if a.type = "SET_VALUE" then some a.target else none)) := by
  induction acts generalizing wt0 with
  | nil => simp
  | cons a t ih =>
    by_cases ha : a.type = "SET_VALUE"
    · simp only [List.foldl_cons, if_pos ha, List.filterMap_cons, ha, if_true]
      rw [ih]
      rw [rpush_mem]
      simp only [List.mem_cons]
      constructor
      · rintro (h | ⟨hw, hf⟩)
        · rcases h with h | ⟨hf, hw⟩
          · exact Or.inl h
          · exact Or.inr ⟨hw, Or.inl hf⟩
        · exact Or.inr ⟨hw, Or.inr hf⟩
      · rintro (h | ⟨hw, hf | hf⟩)
        · exact Or.inl (Or.inl h)
        · exact Or.inl (Or.inr ⟨hf, hw⟩)
        · exact Or.inr ⟨hw, hf⟩
    · simp only [List.foldl_cons, if_neg ha, List.filterMap_cons, ha]
      rw [ih]
      simp [ha]

theorem buildWritesTo_mem (ruleIds : List String) (deps : DependencyGraph)
    (f w : String) :
    w ∈ (rget (buildWritesTo ruleIds deps) f).getD [] ↔
      w ∈ ruleIds ∧ f ∈ writesOf deps w := by
  unfold buildWritesTo
  suffices h : ∀ (l : List String) (wt0 : List (String × List String)),
      w ∈ (rget (l.foldl
          (fun wt rid =>
            match rget deps.rules rid with
            | none => wt
            | some rd =>
              (actionsOf rd.rule.thenA ++ actionsOf rd.rule.elseA).foldl
                (fun wt2 a =>
                  if a.type = "SET_VALUE" then rpush wt2 a.target rid else wt2)
                wt)
          wt0) f).getD [] ↔
        w ∈ (rget wt0 f).getD [] ∨ (w ∈ l ∧ f ∈ writesOf deps w) by
    rw [h ruleIds []]
    simp [rget]
  intro l
  induction l with
  | nil => simp
  | cons rid t ih =>
    intro wt0
    simp only [List.foldl_cons]
    cases hrg : rget deps.rules rid with
    | none =>
      rw [ih]
      constructor
      · rintro (h | ⟨hw, hf⟩)
        · exact Or.inl h
        · exact Or.inr ⟨by simp [hw], hf⟩
      · rintro (h | ⟨hw, hf⟩)
        · exact Or.inl h
        · rcases List.mem_cons.mp hw with rfl | hw2
          · unfold writesOf at hf
            rw [hrg] at hf
            simp at hf
          · exact Or.inr ⟨hw2, hf⟩
    | some rd =>
      rw [ih, wtActions_mem]
      have hwr : writesOf deps rid =
          (actionsOf rd.rule.thenA ++ actionsOf rd.rule.elseA).filterMap
            (fun a => if a.type = "SET_VALUE" then some a.target else none) := by
        unfold writesOf
        rw [hrg]
      constructor
      · rintro ((h | ⟨hw, hf⟩) | ⟨hw, hf⟩)
        · exact Or.inl h
        · subst hw
          exact Or.inr ⟨by simp, by rw [hwr]; exact hf⟩
        · exact Or.inr ⟨by simp [hw], hf⟩
      · rintro (h | ⟨hw, hf⟩)
        · exact Or.inl (Or.inl h)
        · rcases List.mem_cons.mp hw with rfl | hw2
          · exact Or.inl (Or.inr ⟨rfl, by rw [hwr] at hf; exact hf⟩)
          · exact Or.inr ⟨hw2, hf⟩

/-- Top-level fold of the sort: visiting every candidate id from an
invariant-satisfying state preserves the invariant and visits them all. -/
theorem sortFoldBasic (ruleIds : List String) (deps : DependencyGraph)
    (wt : List (String × List String)) :
    ∀ (l : List String) (st : SortState), (∀ x ∈ l, x ∈ ruleIds) →
    SortInv ruleIds [] st →
    (∀ x ∈ st.visited,
      x ∈ (l.foldl (fun st2 rid => visitF ruleIds.length ruleIds deps wt rid st2)
        st).visited) ∧
    SortInv ruleIds []
      (l.foldl (fun st2 rid => visitF ruleIds.length ruleIds deps wt rid st2) st) ∧
    (∀ x ∈ l,
      x ∈ (l.foldl (fun st2 rid => visitF ruleIds.length ruleIds deps wt rid st2)
        st).visited) := by
  intro l
  induction l with
  | nil =>
    intro st _ hinv
    exact ⟨fun x hx => hx, hinv, by simp⟩
  | cons r t ih =>
    intro st hl hinv
    obtain ⟨hm, _, hi, hr⟩ :=
      ((dfsBasic ruleIds deps wt ruleIds.length).1) r [] st (hl r (by simp))
        (by simp) hinv (unvis_le_length _ _)
    obtain ⟨hm2, hi2, hall⟩ :=
      ih (visitF ruleIds.length ruleIds deps wt r st)
        (fun x hx => hl x (by simp [hx])) hi
    simp only [List.foldl_cons]
    refine ⟨fun x hx => hm2 x (hm x hx), hi2, ?_⟩
    intro x hx
    rcases List.mem_cons.mp hx with rfl | hx2
    · exact hm2 x hr
    · exact hall x hx2

/-- C10: `sortRulesForEvaluation` returns a duplicate-free list containing
exactly the distinct candidate ids — each id at most once — so one
`evaluateRules` pass iterates every rule at most once. -/
theorem sortRulesForEvaluation_each_once (ruleIds : List String)
    (deps : DependencyGraph) :
    (sortRulesForEvaluation ruleIds deps).Nodup ∧
    (∀ x, x ∈ sortRulesForEvaluation ruleIds deps ↔ x ∈ ruleIds) ∧
    (∀ x, (sortRulesForEvaluation ruleIds deps).count x ≤ 1) := by
  have hres : sortRulesForEvaluation ruleIds deps =
      (ruleIds.foldl
        (fun st2 rid => visitF ruleIds.length ruleIds deps
          (buildWritesTo ruleIds deps) rid st2)
        ⟨[], []⟩).sorted := rfl
  obtain ⟨_, hinv, hall⟩ :=
    sortFoldBasic ruleIds deps (buildWritesTo ruleIds deps) ruleIds ⟨[], []⟩
      (fun x hx => hx)
      ⟨by simp [SortState.visited, SortState.sorted], by simp, List.nodup_nil,
       by simp [SortState.visited]⟩
  obtain ⟨hiff, _, hnd, hsub⟩ := hinv
  rw [hres]
  refine ⟨hnd, ?_, ?_⟩
  · intro x
    constructor
    · intro hx
      exact hsub x ((hiff x).mpr (Or.inl hx))
    · intro hx
      rcases (hiff x).mp (hall x hx) with h | h
      · exact h
      · simp at h
  · intro x
    exact List.nodup_iff_count_le_one.mp hnd x

/-- Ordering facts about the depth-first sort under an acyclicity rank:
every visit preserves the writer-before-reader ordering of the output,
because a rule is only pushed after all its candidate writers are already
in the output (a writer still on the recursion stack would contradict the
rank). -/
theorem dfsOrd (ruleIds : List String) (deps : DependencyGraph)
    (rank : String → Nat)
    (hrank : ∀ w r, EdgeTo ruleIds deps w r → rank w < rank r) :
    ∀ fuel : Nat,
    (∀ r S st, r ∈ ruleIds → r ∉ S → (∀ s ∈ S, rank r < rank s) →
        SortInv ruleIds S st → unvisCount ruleIds st.visited ≤ fuel →
        TopoOrd ruleIds deps st.sorted →
        TopoOrd ruleIds deps
          (visitF fuel ruleIds deps (buildWritesTo ruleIds deps) r st).sorted) ∧
    (∀ rid S ps st, rid ∈ ruleIds → rid ∈ S → (∀ s ∈ S, rank rid ≤ rank s) →
        (∀ p ∈ ps, p ∈ readsOfD deps rid) →
        SortInv ruleIds S st → unvisCount ruleIds st.visited ≤ fuel →
        TopoOrd ruleIds deps st.sorted →
        TopoOrd ruleIds deps
          (goReads fuel ruleIds deps (buildWritesTo ruleIds deps) rid ps st).sorted) ∧
    (∀ rid S ws st, rid ∈ ruleIds → rid ∈ S → (∀ s ∈ S, rank rid ≤ rank s) →
        (∀ w ∈ ws, w ≠ rid → w ∈ ruleIds → EdgeTo ruleIds deps w rid) →
        SortInv ruleIds S st → unvisCount ruleIds st.visited ≤ fuel →
        TopoOrd ruleIds deps st.sorted →
        TopoOrd ruleIds deps
          (goWriters fuel ruleIds deps (buildWritesTo ruleIds deps) rid ws st).sorted) := by
  intro fuel
  induction fuel with
  | zero =>
    have hvisit : ∀ r S st, r ∈ ruleIds → r ∉ S → (∀ s ∈ S, rank r < rank s) →
        SortInv ruleIds S st → unvisCount ruleIds st.visited ≤ 0 →
        TopoOrd ruleIds deps st.sorted →
        TopoOrd ruleIds deps
          (visitF 0 ruleIds deps (buildWritesTo ruleIds deps) r st).sorted := by
      intro r S st _ _ _ _ _ hord
      have h0 : visitF 0 ruleIds deps (buildWritesTo ruleIds deps) r st = st := by
        simp [visitF]
      rw [h0]
      exact hord
    have hwriters : ∀ rid S ws st, rid ∈ ruleIds → rid ∈ S →
        (∀ s ∈ S, rank rid ≤ rank s) →
        (∀ w ∈ ws, w ≠ rid → w ∈ ruleIds → EdgeTo ruleIds deps w rid) →
        SortInv ruleIds S st → unvisCount ruleIds st.visited ≤ 0 →
        TopoOrd ruleIds deps st.sorted →
        TopoOrd ruleIds deps
          (goWriters 0 ruleIds deps (buildWritesTo ruleIds deps) rid ws st).sorted := by
      intro rid S ws st hrid hridS hrk hws hinv hfu hord
      induction ws generalizing st with
      | nil =>
        have h0 : goWriters 0 ruleIds deps (buildWritesTo ruleIds deps) rid [] st
            = st := by simp [goWriters]
        rw [h0]
        exact hord
      | cons w ws2 ih =>
        by_cases hguard : w ≠ rid ∧ w ∈ ruleIds ∧ w ∉ st.visited
        · have hz : unvisCount ruleIds st.visited = 0 := Nat.le_zero.mp hfu
          exact absurd (unvis_zero_visited ruleIds st.visited w hz hguard.2.1)
            hguard.2.2
        · have hstep : goWriters 0 ruleIds deps (buildWritesTo ruleIds deps) rid
              (w :: ws2) st =
              goWriters 0 ruleIds deps (buildWritesTo ruleIds deps) rid ws2 st := by
            simp only [goWriters, if_neg hguard]
          rw [hstep]
          exact ih _ (fun w2 h2 => hws w2 (by simp [h2])) hinv hfu hord
    refine ⟨hvisit, ?_, hwriters⟩
    intro rid S ps st hrid hridS hrk hps hinv hfu hord
    induction ps generalizing st with
    | nil =>
      have h0 : goReads 0 ruleIds deps (buildWritesTo ruleIds deps) rid [] st
          = st := by simp [goReads]
      rw [h0]
      exact hord
    | cons p ps2 ih =>
      by_cases hskip : skipContextPath p = true
      · have hstep : goReads 0 ruleIds deps (buildWritesTo ruleIds deps) rid
            (p :: ps2) st =
            goReads 0 ruleIds deps (buildWritesTo ruleIds deps) rid ps2 st := by
          simp only [goReads, if_pos hskip]
        rw [hstep]
        exact ih _ (fun p2 h2 => hps p2 (by simp [h2])) hinv hfu hord
      · have hskip2 : skipContextPath p = false := eq_false_of_ne_true hskip
        have hstep : goReads 0 ruleIds deps (buildWritesTo ruleIds deps) rid
            (p :: ps2) st =
            goReads 0 ruleIds deps (buildWritesTo ruleIds deps) rid ps2
              (goWriters 0 ruleIds deps (buildWritesTo ruleIds deps) rid
                ((rget (buildWritesTo ruleIds deps) (lastSegment p)).getD []) st) := by
          simp only [goReads, hskip2, Bool.false_eq_true, if_false]
        rw [hstep]
        have hws : ∀ w ∈ (rget (buildWritesTo ruleIds deps) (lastSegment p)).getD [],
            w ≠ rid → w ∈ ruleIds → EdgeTo ruleIds deps w rid := by
          intro w hw hne hwids
          have hmem := (buildWritesTo_mem ruleIds deps (lastSegment p) w).mp hw
          exact ⟨hne, hwids, hrid, p, hps p (by simp), hskip2, hmem.2⟩
        have hordw := hwriters rid S _ st hrid hridS hrk hws hinv hfu hord
        obtain ⟨hm1, _, hi1, _⟩ :=
          ((dfsBasic ruleIds deps (buildWritesTo ruleIds deps) 0).2.2) rid S
            ((rget (buildWritesTo ruleIds deps) (lastSegment p)).getD []) st hinv hfu
        exact ih _ (fun p2 h2 => hps p2 (by simp [h2])) hi1
          (le_trans (unvis_mono ruleIds _ _ hm1) hfu) hordw
  | succ fuel ihf =>
    obtain ⟨_, ihr, _⟩ := ihf
    obtain ⟨ihbv, ihbr, ihbw⟩ := dfsBasic ruleIds deps (buildWritesTo ruleIds deps) fuel
    obtain ⟨ihbv1, ihbr1, ihbw1⟩ :=
      dfsBasic ruleIds deps (buildWritesTo ruleIds deps) (fuel + 1)
    have hvisit : ∀ r S st, r ∈ ruleIds → r ∉ S → (∀ s ∈ S, rank r < rank s) →
        SortInv ruleIds S st → unvisCount ruleIds st.visited ≤ fuel + 1 →
        TopoOrd ruleIds deps st.sorted →
        TopoOrd ruleIds deps
          (visitF (fuel + 1) ruleIds deps (buildWritesTo ruleIds deps) r st).sorted := by
      intro r S st hr hrS hrk hinv hfu hord
      by_cases hvis : r ∈ st.visited
      · have hstep : visitF (fuel + 1) ruleIds deps (buildWritesTo ruleIds deps) r st
            = st := by
          simp only [visitF, if_pos hvis]
        rw [hstep]
        exact hord
      · have hinv1 : SortInv ruleIds (r :: S) ⟨r :: st.visited, st.sorted⟩ :=
          SortInv_push ruleIds S st r hr hvis hinv
        have hfu1 : unvisCount ruleIds (r :: st.visited) ≤ fuel := by
          have := unvis_push_lt ruleIds st.visited r hr hvis
          omega
        have hrk1 : ∀ s ∈ (r :: S : List String), rank r ≤ rank s := by
          intro s hs
          rcases List.mem_cons.mp hs with rfl | hs2
          · exact le_refl _
          · exact le_of_lt (hrk s hs2)
        cases hrg : rget deps.rules r with
        | none =>
          have hstep : visitF (fuel + 1) ruleIds deps (buildWritesTo ruleIds deps) r st =
              ⟨(SortState.mk (r :: st.visited) st.sorted).visited,
               (SortState.mk (r :: st.visited) st.sorted).sorted ++ [r]⟩ := by
            simp only [visitF, if_neg hvis, hrg]
          rw [hstep]
          intro w r2 hedge hr2
          rcases List.mem_append.mp hr2 with h | h
          · exact Before_append _ _ _ _ (hord w r2 hedge h)
          · have hr2r : r2 = r := by simpa using h
            subst hr2r
            obtain ⟨_, _, _, p, hp, _, _⟩ := hedge
            unfold readsOfD at hp
            rw [hrg] at hp
            simp at hp
        | some rd =>
          have hstep : visitF (fuel + 1) ruleIds deps (buildWritesTo ruleIds deps) r st =
              ⟨(goReads fuel ruleIds deps (buildWritesTo ruleIds deps) r rd.reads
                  ⟨r :: st.visited, st.sorted⟩).visited,
               (goReads fuel ruleIds deps (buildWritesTo ruleIds deps) r rd.reads
                  ⟨r :: st.visited, st.sorted⟩).sorted ++ [r]⟩ := by
            simp only [visitF, if_neg hvis, hrg]
          rw [hstep]
          have hpsub : ∀ p ∈ rd.reads, p ∈ readsOfD deps r := by
            intro p hp
            unfold readsOfD
            rw [hrg]
            exact hp
          have hord2 := ihr r (r :: S) rd.reads ⟨r :: st.visited, st.sorted⟩
            hr (by simp) hrk1 hpsub hinv1 hfu1 hord
          obtain ⟨_, _, hi2, hreadpost⟩ :=
            ihbr r (r :: S) rd.reads ⟨r :: st.visited, st.sorted⟩ hinv1 hfu1
          intro w r2 hedge hr2
          rcases List.mem_append.mp hr2 with h | h
          · exact Before_append _ _ _ _ (hord2 w r2 hedge h)
          · have hr2r : r2 = r := by simpa using h
            subst hr2r
            obtain ⟨hne, hwids, _, p, hp, hsk, hlast⟩ := hedge
            have hp2 : p ∈ rd.reads := by
              unfold readsOfD at hp
              rw [hrg] at hp
              exact hp
            have hwmem : w ∈ (rget (buildWritesTo ruleIds deps)
                (lastSegment p)).getD [] :=
              (buildWritesTo_mem ruleIds deps (lastSegment p) w).mpr ⟨hwids, hlast⟩
            have hwvis := hreadpost p hp2 hsk w hwmem hne hwids
            obtain ⟨hiff2, _, _, _⟩ := hi2
            rcases (hiff2 w).mp hwvis with hsorted | hstack
            · exact Before_push _ _ _ hsorted
            · rcases List.mem_cons.mp hstack with rfl | hS
              · exact absurd rfl hne
              · have h1 : rank r2 < rank w := hrk w hS
                have h2 : rank w < rank r2 := hrank w r2 ⟨hne, hwids, hr, p, hp, hsk, hlast⟩
                omega
    have hwriters : ∀ rid S ws st, rid ∈ ruleIds → rid ∈ S →
        (∀ s ∈ S, rank rid ≤ rank s) →
        (∀ w ∈ ws, w ≠ rid → w ∈ ruleIds → EdgeTo ruleIds deps w rid) →
        SortInv ruleIds S st → unvisCount ruleIds st.visited ≤ fuel + 1 →
        TopoOrd ruleIds deps st.sorted →
        TopoOrd ruleIds deps
          (goWriters (fuel + 1) ruleIds deps (buildWritesTo ruleIds deps) rid ws st).sorted := by
      intro rid S ws st hrid hridS hrk hws hinv hfu hord
      induction ws generalizing st with
      | nil =>
        have h0 : goWriters (fuel + 1) ruleIds deps (buildWritesTo ruleIds deps)
            rid [] st = st := by simp [goWriters]
        rw [h0]
        exact hord
      | cons w ws2 ih =>
        by_cases hguard : w ≠ rid ∧ w ∈ ruleIds ∧ w ∉ st.visited
        · have hstep : goWriters (fuel + 1) ruleIds deps (buildWritesTo ruleIds deps)
              rid (w :: ws2) st =
              goWriters (fuel + 1) ruleIds deps (buildWritesTo ruleIds deps) rid ws2
                (visitF (fuel + 1) ruleIds deps (buildWritesTo ruleIds deps) w st) := by
            simp only [goWriters, if_pos hguard]
          rw [hstep]
          have hedge : EdgeTo ruleIds deps w rid :=
            hws w (by simp) hguard.1 hguard.2.1
          have hwS : w ∉ S := fun hmem => hguard.2.2 ((hinv.1 w).mpr (Or.inr hmem))
          have hrkw : ∀ s ∈ S, rank w < rank s := by
            intro s hs
            exact lt_of_lt_of_le (hrank w rid hedge) (hrk s hs)
          have hordv := hvisit w S st hguard.2.1 hwS hrkw hinv hfu hord
          obtain ⟨hmv, _, hiv, _⟩ := ihbv1 w S st hguard.2.1 hwS hinv hfu
          exact ih _ (fun w2 h2 => hws w2 (by simp [h2])) hiv
            (le_trans (unvis_mono ruleIds _ _ hmv) hfu) hordv
        · have hstep : goWriters (fuel + 1) ruleIds deps (buildWritesTo ruleIds deps)
              rid (w :: ws2) st =
              goWriters (fuel + 1) ruleIds deps (buildWritesTo ruleIds deps) rid ws2
                st := by
            simp only [goWriters, if_neg hguard]
          rw [hstep]
          exact ih _ (fun w2 h2 => hws w2 (by simp [h2])) hinv hfu hord
    refine ⟨hvisit, ?_, hwriters⟩
    intro rid S ps st hrid hridS hrk hps hinv hfu hord
    induction ps generalizing st with
    | nil =>
      have h0 : goReads (fuel + 1) ruleIds deps (buildWritesTo ruleIds deps)
          rid [] st = st := by simp [goReads]
      rw [h0]
      exact hord
    | cons p ps2 ih =>
      by_cases hskip : skipContextPath p = true
      · have hstep : goReads (fuel + 1) ruleIds deps (buildWritesTo ruleIds deps)
            rid (p :: ps2) st =
            goReads (fuel + 1) ruleIds deps (buildWritesTo ruleIds deps) rid ps2
              st := by
          simp only [goReads, if_pos hskip]
        rw [hstep]
        exact ih _ (fun p2 h2 => hps p2 (by simp [h2])) hinv hfu hord
      · have hskip2 : skipContextPath p = false := eq_false_of_ne_true hskip
        have hstep : goReads (fuel + 1) ruleIds deps (buildWritesTo ruleIds deps)
            rid (p :: ps2) st =
            goReads (fuel + 1) ruleIds deps (buildWritesTo ruleIds deps) rid ps2
              (goWriters (fuel + 1) ruleIds deps (buildWritesTo ruleIds deps) rid
                ((rget (buildWritesTo ruleIds deps) (lastSegment p)).getD []) st) := by
          simp only [goReads, hskip2, Bool.false_eq_true, if_false]
        rw [hstep]
        have hws : ∀ w ∈ (rget (buildWritesTo ruleIds deps) (lastSegment p)).getD [],
            w ≠ rid → w ∈ ruleIds → EdgeTo ruleIds deps w rid := by
          intro w hw hne hwids
          have hmem := (buildWritesTo_mem ruleIds deps (lastSegment p) w).mp hw
          exact ⟨hne, hwids, hrid, p, hps p (by simp), hskip2, hmem.2⟩
        have hordw := hwriters rid S _ st hrid hridS hrk hws hinv hfu hord
        obtain ⟨hm1, _, hi1, _⟩ := ihbw1 rid S
          ((rget (buildWritesTo ruleIds deps) (lastSegment p)).getD []) st hinv hfu
        exact ih _ (fun p2 h2 => hps p2 (by simp [h2])) hi1
          (le_trans (unvis_mono ruleIds _ _ hm1) hfu) hordw

/-- Top-level fold of the sort preserves the writer-before-reader
ordering under an acyclicity rank. -/
theorem sortFoldOrd (ruleIds : List String) (deps : DependencyGraph)
    (rank : String → Nat)
    (hrank : ∀ w r, EdgeTo ruleIds deps w r → rank w < rank r) :
    ∀ (l : List String) (st : SortState), (∀ x ∈ l, x ∈ ruleIds) →
    SortInv ruleIds [] st → TopoOrd ruleIds deps st.sorted →
    TopoOrd ruleIds deps
      (l.foldl (fun st2 rid => visitF ruleIds.length ruleIds deps
        (buildWritesTo ruleIds deps) rid st2) st).sorted := by
  intro l
  induction l with
  | nil =>
    intro st _ _ hord
    exact hord
  | cons r t ih =>
    intro st hl hinv hord
    simp only [List.foldl_cons]
    have hordv := (dfsOrd ruleIds deps rank hrank ruleIds.length).1 r [] st
      (hl r (by simp)) (by simp) (by simp) hinv (unvis_le_length _ _) hord
    obtain ⟨_, _, hiv, _⟩ :=
      (dfsBasic ruleIds deps (buildWritesTo ruleIds deps) ruleIds.length).1 r [] st
        (hl r (by simp)) (by simp) hinv (unvis_le_length _ _)
    exact ih _ (fun x hx => hl x (by simp [hx])) hiv hordv

/-- C7 (amended): when the write/read relation the sort orders by —
candidate `w` carries a `SET_VALUE` targeting the last path segment of a
non-context read of candidate `r` — admits a rank (is acyclic), every such
writer appears strictly before its reader in
`sortRulesForEvaluation(ruleIds, deps)`.  In particular, for a written
field id `f` containing no dot, a writer of `f` precedes every other
candidate whose reads include `f` itself. -/
theorem sortRulesForEvaluation_topological (ruleIds : List String)
    (deps : DependencyGraph) (rank : String → Nat)
    (hrank : ∀ w r, EdgeTo ruleIds deps w r → rank w < rank r) :
    ∀ w r, EdgeTo ruleIds deps w r →
      Before (sortRulesForEvaluation ruleIds deps) w r := by
  intro w r hedge
  have hres : sortRulesForEvaluation ruleIds deps =
      (ruleIds.foldl
        (fun st2 rid => visitF ruleIds.length ruleIds deps
          (buildWritesTo ruleIds deps) rid st2)
        ⟨[], []⟩).sorted := rfl
  have hinv0 : SortInv ruleIds [] ⟨[], []⟩ :=
    ⟨by simp [SortState.visited, SortState.sorted], by simp, List.nodup_nil,
     by simp [SortState.visited]⟩
  have hord := sortFoldOrd ruleIds deps rank hrank ruleIds ⟨[], []⟩
    (fun x hx => hx) hinv0 (by intro a b _ hmem; simp at hmem)
  obtain ⟨_, hinv, hall⟩ :=
    sortFoldBasic ruleIds deps (buildWritesTo ruleIds deps) ruleIds ⟨[], []⟩
      (fun x hx => hx) hinv0
  have hrmem : r ∈ (ruleIds.foldl
      (fun st2 rid => visitF ruleIds.length ruleIds deps
        (buildWritesTo ruleIds deps) rid st2) ⟨[], []⟩).sorted := by
    rcases (hinv.1 r).mp (hall r hedge.2.2.1) with h | h
    · exact h
    · simp at h
  rw [hres]
  exact hord w r hedge hrmem

/-- Witness for the amended topological ordering: with `r1` writing `x`
and `r2` reading `x`, the writer is ordered before the reader. -/
theorem sortRulesForEvaluation_topological_witness :
    (∀ w r, EdgeTo ["r2", "r1"] topoDeps w r → topoRank w < topoRank r) ∧
    EdgeTo ["r2", "r1"] topoDeps "r1" "r2" ∧
    Before (sortRulesForEvaluation ["r2", "r1"] topoDeps) "r1" "r2" := by
  have hrank : ∀ w r, EdgeTo ["r2", "r1"] topoDeps w r →
      topoRank w < topoRank r := by
    intro w r hedge
    obtain ⟨hne, hw, hr, p, hp, hsk, hlast⟩ := hedge
    rcases List.mem_cons.mp hw with rfl | hw2
    · simp [writesOf, topoDeps, rget, actionsOf] at hlast
    · have hw3 : w = "r1" := by simpa using hw2
      subst hw3
      rcases List.mem_cons.mp hr with rfl | hr2
      · simp [topoRank]
      · have hr3 : r = "r1" := by simpa using hr2
        subst hr3
        exact absurd rfl hne
  have hedge : EdgeTo ["r2", "r1"] topoDeps "r1" "r2" := by
    refine ⟨by decide, by simp, by simp, "x", ?_, by decide, ?_⟩
    · simp [readsOfD, topoDeps, rget]
    · simp [writesOf, topoDeps, rget, actionsOf, lastSegment, splitOnChar]
  exact ⟨hrank, hedge,
    sortRulesForEvaluation_topological ["r2", "r1"] topoDeps topoRank hrank
      "r1" "r2" hedge⟩

/-- C7 (counterexample to the claim as stated): rule `r1` carries a
`SET_VALUE` targeting the dotted field id `a.b` and rule `r2`'s reads
include `a.b` itself (not context-prefixed); the claim's write/read
relation is acyclic (ranked), yet the returned ordering places the reader
`r2` before the writer `r1`, because the sort matches writers against the
last dot-segment `b` of the read rather than the full path. -/
theorem sortRulesForEvaluation_claim_cex :
    (∀ w r, ClaimEdge ["r2", "r1"] dotDeps w r → dotRank w < dotRank r) ∧
    ClaimEdge ["r2", "r1"] dotDeps "r1" "r2" ∧
    sortRulesForEvaluation ["r2", "r1"] dotDeps = ["r2", "r1"] ∧
    ¬ Before (sortRulesForEvaluation ["r2", "r1"] dotDeps) "r1" "r2" := by
  have hsort : sortRulesForEvaluation ["r2", "r1"] dotDeps = ["r2", "r1"] := by
    simp [sortRulesForEvaluation, buildWritesTo, visitF, goReads, goWriters,
      rget, rpush, rset, actionsOf, dotDeps, skipContextPath, jsStartsWith,
      lastSegment, splitOnChar]
  have hrank : ∀ w r, ClaimEdge ["r2", "r1"] dotDeps w r →
      dotRank w < dotRank r := by
    intro w r hedge
    obtain ⟨hne, hw, hr, f, hfw, hfr, hsk⟩ := hedge
    rcases List.mem_cons.mp hw with rfl | hw2
    · simp [writesOf, dotDeps, rget, actionsOf] at hfw
    · have hw3 : w = "r1" := by simpa using hw2
      subst hw3
      rcases List.mem_cons.mp hr with rfl | hr2
      · simp [dotRank]
      · have hr3 : r = "r1" := by simpa using hr2
        subst hr3
        exact absurd rfl hne
  have hedge : ClaimEdge ["r2", "r1"] dotDeps "r1" "r2" := by
    refine ⟨by decide, by simp, by simp, "a.b", ?_, ?_, by decide⟩
    · simp [writesOf, dotDeps, rget, actionsOf]
    · simp [readsOfD, dotDeps, rget]
  refine ⟨hrank, hedge, hsort, ?_⟩
  rw [hsort]
  rintro ⟨l1, l2, l3, hsplit⟩
  have hlen := congrArg List.length hsplit
  simp [List.length_append] at hlen
  obtain ⟨h1, h2, h3⟩ : l1.length = 0 ∧ l2.length = 0 ∧ l3.length = 0 := by
    omega
  rw [List.length_eq_zero.mp h1, List.length_eq_zero.mp h2,
    List.length_eq_zero.mp h3] at hsplit
  simp at hsplit

/-- Witness for the update frame property: editing `f` on `frameSnap`
triggers rule `r1` (which sets an error on `f`), and every map entry of
the untouched key `other` reads back unchanged. -/
theorem updateSnapshot_frame_witness :
    (("other" : String) ∉ (updateActions frameSnap "f" (.vnum 9)).map
      (fun a => a.target)) ∧
    rget (updateSnapshot frameSnap "f" (.vnum 9)).values "other"
      = rget frameSnap.values "other" ∧
    rget (updateSnapshot frameSnap "f" (.vnum 9)).ui.sections "other"
      = rget frameSnap.ui.sections "other" ∧
    rget (updateSnapshot frameSnap "f" (.vnum 9)).ui.fields "other"
      = rget frameSnap.ui.fields "other" ∧
    rget (updateSnapshot frameSnap "f" (.vnum 9)).errors "other"
      = rget frameSnap.errors "other" := by
  have hacts : updateActions frameSnap "f" (.vnum 9) =
      [⟨"SET_ERROR", "f", .vstr "boom"⟩] := by
    simp [updateActions, frameSnap, getRulesForField, rget, evaluateRules,
      sortRulesForEvaluation, buildWritesTo, visitF, goReads, goWriters,
      actionsOf, evaluate, truthy, skipContextPath, jsStartsWith, lastSegment,
      splitOnChar, rpush, rset]
  have hk : ("other" : String) ∉ (updateActions frameSnap "f" (.vnum 9)).map
      (fun a => a.target) := by
    rw [hacts]
    decide
  have h := updateSnapshot_frame frameSnap "f" (.vnum 9) "other" hk
  exact ⟨hk, h.1 (by decide), h.2.1, h.2.2.1, h.2.2.2⟩
